import Mathlib

/-!
Verification of the `trains` delivery planner.

Shallow embedding of the Rust sources:
  * `src/model/state.rs`    — planner state, train state, feasibility gates,
    successor generation, instruction synthesis;
  * `src/model/route_path.rs` — all-pairs route map construction;
  * parts of the parent `model` module that are not present in the sources
    (`Route::is_from`/`is_to`, `Route::identity`, route doubling,
    `Network::actions`, `Network::route_map`, `Instruction::combine`) are
    modelled from the specification; each such definition carries a
    doc comment starting with `Modelled from the spec:`.

Machine integers (`u32`) are embedded as `Nat`; fallible operations
(`unwrap` on map lookups, `.max()` on a possibly-empty iterator) are
embedded with `Option`.
-/

namespace Trains

/-- A station; identity is its name (`Station` in `model.rs`). -/
structure Station where
  name : String
deriving DecidableEq, Repr

/-- A directed route (`Route`): name, ordered endpoint pair, travel time.
`u32 duration` is embedded as `Nat`. -/
structure Route where
  name : String
  station_pair : Station × Station
  travel_time : Nat
deriving DecidableEq, Repr

/-- `Route::from` (the field accessor; `from` is a Lean keyword). -/
def Route.fromStation (r : Route) : Station := r.station_pair.1

/-- `Route::to`. -/
def Route.toStation (r : Route) : Station := r.station_pair.2

/-- Modelled from the spec: directed predicate `is_from(s)` of §4.A
(the definition lives in the missing parent `model` module). -/
def Route.is_from (r : Route) (s : Station) : Bool := r.fromStation == s

/-- Modelled from the spec: directed predicate `is_to(s)` of §4.A. -/
def Route.is_to (r : Route) (s : Station) : Bool := r.toStation == s

/-- `Route::is_involve_station`. -/
def Route.is_involve_station (r : Route) (s : Station) : Bool :=
  r.fromStation == s || r.toStation == s

/-- `Route::corresponding_station`: the other endpoint.  The Rust version
returns an error when the station is not an endpoint; it is only ever called
on involving routes, where this total version agrees with it. -/
def Route.corresponding_station (r : Route) (s : Station) : Station :=
  if r.fromStation == s then r.toStation else r.fromStation

/-- Modelled from the spec: the synthesized zero-time identity route of a
station (`Route::identity` in the missing parent module; the name follows
the `"{}#id"` scheme of `route_path.rs`). -/
def Route.identity (s : Station) : Route :=
  { name := s.name ++ "#id", station_pair := (s, s), travel_time := 0 }

/-- A package (`Package`): name, weight, pickup/destination pair. -/
structure Package where
  name : String
  weight : Nat
  station_pair : Station × Station
deriving DecidableEq, Repr

/-- `Package::from`. -/
def Package.fromStation (p : Package) : Station := p.station_pair.1

/-- `Package::to`. -/
def Package.toStation (p : Package) : Station := p.station_pair.2

/-- A train (`Train`): name, capacity, initial station. -/
structure Train where
  name : String
  capacity : Nat
  initial_station : Station
deriving DecidableEq, Repr

/-- A concrete path (`RoutePath`): endpoint pair plus the ordered directed
edges realizing it. -/
structure RoutePath where
  station_pair : Station × Station
  routes : List Route
deriving DecidableEq, Repr

/-- `RoutePath::travel_time` (called `total_duration_mins` in the draft
`route_path.rs`): sum of edge times. -/
def RoutePath.travel_time (rp : RoutePath) : Nat :=
  (rp.routes.map Route.travel_time).sum

/-- The zero-weight identity path inserted for every station by
`all_shortest_route_paths`. -/
def RoutePath.identityPath (s : Station) : RoutePath :=
  { station_pair := (s, s), routes := [Route.identity s] }

/-- `RouteMap`: the all-pairs table.  The Rust `HashMap` built by
`HashMap::from_iter` (later entries overwrite earlier ones) is embedded as
the underlying association list; `rmLookup` realizes `get`. -/
def RouteMap := List ((Station × Station) × RoutePath)
deriving DecidableEq

/-- `HashMap::get` on the embedded map: the last binding of a key wins,
matching `from_iter` overwrite semantics. -/
def rmLookup (m : RouteMap) (k : Station × Station) : Option RoutePath :=
  (m.reverse.find? (fun e => e.1 == k)).map (fun e => e.2)

/-- The static description of the network (`model::Network`). -/
structure Network where
  stations : List Station
  routes : List Route
  packages : List Package
  trains : List Train
deriving DecidableEq, Repr

/-- An action (`state::Action`). -/
inductive Action where
  | Pick (p : Package) (s : Station)
  | Drop (p : Package) (s : Station)
deriving DecidableEq, Repr

/-- `Action::package`. -/
def Action.package : Action → Package
  | .Pick p _ => p
  | .Drop p _ => p

/-- `Action::station`. -/
def Action.station : Action → Station
  | .Pick _ s => s
  | .Drop _ s => s

/-- Modelled from the spec: `Network::actions` (§4.C, missing parent
module): for each package, `Pick(p, p.from)` followed by `Drop(p, p.to)`,
in package input order. -/
def Network.actions (net : Network) : List Action :=
  net.packages.flatMap (fun p => [Action.Pick p p.fromStation, Action.Drop p p.toStation])

/-! ## The all-pairs router (`route_path.rs`)

The single-source shortest-path computation itself is the external
`pathfinding` crate (`dijkstra_all` + `build_path`); it is modelled from the
spec (§4.B) as: for every reachable target, some minimum-weight station
sequence through the graph whose successor relation is
`Network::reachable_stations`.  The model enumerates route chains of bounded
length and picks the first one (shortest first) realizing the minimum
weight; §4.B only demands *some* minimum-weight path. -/

/-- `Network::routes_from`. -/
def Network.routes_from (net : Network) (s : Station) : List Route :=
  net.routes.filter (fun r => r.is_involve_station s)

/-- `Network::reachable_stations`: the successor list handed to the SSSP,
pairing the opposite endpoint of every involving route with its time. -/
def Network.reachable_stations (net : Network) (s : Station) : List (Station × Nat) :=
  (net.routes_from s).map (fun r => (r.corresponding_station s, r.travel_time))

/-- The station sequence visited when following the routes `rs` from `u`,
each step moving to the corresponding (opposite) endpoint. -/
def chainStations (u : Station) : List Route → List Station
  | [] => [u]
  | r :: rest => u :: chainStations (r.corresponding_station u) rest

/-- The last station of the visited sequence. -/
def chainEnd (u : Station) : List Route → Station
  | [] => u
  | r :: rest => chainEnd (r.corresponding_station u) rest

/-- `isChain u rs v`: the routes `rs` form a walk from `u` to `v` in the
graph explored by the SSSP (each step uses a route involving the current
station and moves to its corresponding endpoint). -/
def isChain (u : Station) (rs : List Route) (v : Station) : Bool :=
  match rs with
  | [] => u == v
  | r :: rest => r.is_involve_station u && isChain (r.corresponding_station u) rest v

/-- Total travel time of a walk. -/
def chainWeight (rs : List Route) : Nat := (rs.map Route.travel_time).sum

/-- All route sequences over `pool` of exactly length `k`. -/
def seqsLen (pool : List Route) : Nat → List (List Route)
  | 0 => [[]]
  | k + 1 => pool.flatMap (fun r => (seqsLen pool k).map (fun rs => r :: rs))

/-- All route sequences over `pool` of length at most `n`, shortest first. -/
def seqsUpTo (pool : List Route) (n : Nat) : List (List Route) :=
  (List.range (n + 1)).flatMap (seqsLen pool)

/-- The deduplicated endpoint stations of a route pool. -/
def endpointStations (pool : List Route) : List Station :=
  (pool.flatMap (fun r => [r.fromStation, r.toStation])).dedup

/-- Every simple walk has at most this many edges. -/
def maxChainLen (pool : List Route) : Nat := (endpointStations pool).length

/-- Minimum of a list of naturals, `none` on the empty list
(iterator `min()` semantics). -/
def listMin? : List Nat → Option Nat
  | [] => none
  | x :: xs => some (xs.foldl min x)

/-- Maximum of a list of naturals, `none` on the empty list
(iterator `max()` semantics). -/
def listMax? : List Nat → Option Nat
  | [] => none
  | x :: xs => some (xs.foldl max x)

/-- Modelled from the spec: the minimum travel time the SSSP computes from
`u` to `v`; `none` when `v` is unreachable.  Chains longer than
`maxChainLen` cannot improve the minimum (established below). -/
def minDist (pool : List Route) (u v : Station) : Option Nat :=
  listMin? (((seqsUpTo pool (maxChainLen pool)).filter (fun rs => isChain u rs v)).map chainWeight)

/-- Modelled from the spec: the chain behind the predecessor pointers the
SSSP returns for target `v`: the first (hence shortest) enumerated walk
realizing the minimum weight. -/
def bestChain (pool : List Route) (u v : Station) : Option (List Route) :=
  match minDist pool u v with
  | none => none
  | some d =>
    (seqsUpTo pool (maxChainLen pool)).find? (fun rs => isChain u rs v && chainWeight rs == d)

/-- Sequence a list of options (`unwrap` on each element, as `Option`). -/
def optList {α : Type} : List (Option α) → Option (List α)
  | [] => some []
  | o :: os => do
    let x ← o
    let xs ← optList os
    pure (x :: xs)

/-- `RoutePath::try_from((station_seq, all_routes))`: pair each consecutive
pair of stations and select, for each pair `(a, b)`, the first route with
`is_from(a) && is_to(b)`.  The Rust `unwrap`s (empty sequence, no matching
route) are embedded as `Option`. -/
def routePathTryFrom (stations : List Station) (all_routes : List Route) : Option RoutePath :=
  match stations with
  | [] => none
  | s :: rest =>
    (optList (((s :: rest).zip rest).map (fun ab =>
        all_routes.find? (fun r => r.is_from ab.1 && r.is_to ab.2)))).map
      (fun rs => { station_pair := (s, (s :: rest).getLast (by simp)), routes := rs })

/-- `Network::shortest_route_paths`: run the SSSP from `from` and
reconstruct a `RoutePath` for every reachable target.  `dijkstra_all` does
not include the start node; reconstructions whose `unwrap` would fail are
dropped rather than diverging. -/
def Network.shortest_route_paths (net : Network) (s : Station) : List RoutePath :=
  ((endpointStations net.routes).filter
      (fun v => v != s && (minDist net.routes s v).isSome)).filterMap
    (fun v => (bestChain net.routes s v).bind
      (fun rs => routePathTryFrom (chainStations s rs) net.routes))

/-- `Network::all_shortest_route_paths`: one identity path per station plus
the deduplicated reconstructed paths of every source. -/
def Network.all_shortest_route_paths (net : Network) : List RoutePath :=
  (net.stations.map RoutePath.identityPath) ++
    (net.stations.flatMap net.shortest_route_paths).dedup

/-- `Network::all_shortest_route_paths_map`. -/
def Network.all_shortest_route_paths_map (net : Network) : RouteMap :=
  net.all_shortest_route_paths.map (fun rp => (rp.station_pair, rp))

/-- Modelled from the spec: `Network::route_map` of the missing parent
module — the `RouteMap` is built once per network (§3, §5). -/
def Network.route_map (net : Network) : RouteMap :=
  net.all_shortest_route_paths_map

/-! ## Train state (`state.rs`) -/

/-- `state::Train`: the static train record, its committed ordered action
history, and the shared route map handle (the `Rc<RouteMap>`). -/
structure TrainState where
  train : Train
  taken_actions : List Action
  route_map : RouteMap
deriving DecidableEq

/-- The picked packages of a history (`partition_map`, left side). -/
def pickedPackages (l : List Action) : List Package :=
  l.filterMap (fun a => match a with | .Pick p _ => some p | .Drop _ _ => none)

/-- The dropped packages of a history (`partition_map`, right side). -/
def droppedPackages (l : List Action) : List Package :=
  l.filterMap (fun a => match a with | .Pick _ _ => none | .Drop p _ => some p)

/-- `Train::current_packages`: picked packages not occurring among the
dropped ones. -/
def TrainState.current_packages (t : TrainState) : List Package :=
  (pickedPackages t.taken_actions).filter
    (fun p => !(droppedPackages t.taken_actions).contains p)

/-- `Train::current_weight`. -/
def TrainState.current_weight (t : TrainState) : Nat :=
  (t.current_packages.map Package.weight).sum

/-- `Train::can_pick`: a route path from the train's *initial* station to
the pickup station exists in the map, and the package fits. -/
def TrainState.can_pick (t : TrainState) (p : Package) : Bool :=
  (rmLookup t.route_map (t.train.initial_station, p.fromStation)).isSome &&
    decide (p.weight + t.current_weight ≤ t.train.capacity)

/-- `Train::can_drop`: some `Pick` of the same package appears in this
train's history. -/
def TrainState.can_drop (t : TrainState) (p : Package) : Bool :=
  t.taken_actions.any (fun a => match a with
    | .Pick _ _ => a.package == p
    | .Drop _ _ => false)

/-- `Train::can_take`. -/
def TrainState.can_take (t : TrainState) (a : Action) : Bool :=
  match a with
  | .Pick p _ => t.can_pick p
  | .Drop p _ => t.can_drop p

/-- `Train::available_actions`: the given actions this train can take. -/
def TrainState.available_actions (t : TrainState) (actions : List Action) : List Action :=
  actions.filter t.can_take

/-- `Train::take_action`: append the action when `can_take` holds. -/
def TrainState.take_action (t : TrainState) (a : Action) : TrainState :=
  if t.can_take a then { t with taken_actions := t.taken_actions ++ [a] } else t

/-- The consecutive `(from, to)` station pairs of a history: initial
station first, then the station of every action (`Train::route_paths`,
construction of `froms`/`tos` and `zip`). -/
def routePairs (init : Station) (l : List Action) : List (Station × Station) :=
  (init :: l.map Action.station).zip (l.map Action.station)

/-- `Train::route_paths`: resolve every consecutive pair through the route
map.  The Rust `unwrap` on each lookup is embedded as `Option`. -/
def TrainState.route_paths (t : TrainState) : Option (List RoutePath) :=
  if t.taken_actions = [] then some [] else
    optList ((routePairs t.train.initial_station t.taken_actions).map
      (fun pr => rmLookup t.route_map pr))

/-- `Train::travel_time_used`: sum of the chain's path times. -/
def TrainState.travel_time_used (t : TrainState) : Option Nat :=
  t.route_paths.map (fun rps => (rps.map RoutePath.travel_time).sum)

/-! ## Planner state (`state.rs`) -/

/-- `state::Network`: one `TrainState` per fleet train plus the immutable
required action list. -/
structure StateNetwork where
  train_states : List TrainState
  required_actions : List Action
deriving DecidableEq

/-- `state::Network::taken_actions`: union (concatenation) of the per-train
histories. -/
def StateNetwork.taken_actions (s : StateNetwork) : List Action :=
  s.train_states.flatMap TrainState.taken_actions

/-- `state::Network::untaken_actions`: required actions not yet taken by
any train. -/
def StateNetwork.untaken_actions (s : StateNetwork) : List Action :=
  s.required_actions.filter (fun a => !s.taken_actions.contains a)

/-- `state::Network::available_actions`: per-train available subsets of the
untaken actions, concatenated and deduplicated (first occurrence kept, as
`itertools::unique`). -/
def StateNetwork.available_actions (s : StateNetwork) : List Action :=
  (s.train_states.flatMap (fun t => t.available_actions s.untaken_actions)).dedup

/-- `state::Network::is_success`: no available action remains. -/
def StateNetwork.is_success (s : StateNetwork) : Bool :=
  s.available_actions.isEmpty

/-- `state::Network::travel_time_used`: `max` over the fleet of the
per-train accumulated travel time; both the per-train `unwrap`s and the
`max().unwrap()` on an empty fleet are embedded as `Option`. -/
def StateNetwork.travel_time_used (s : StateNetwork) : Option Nat :=
  (optList (s.train_states.map TrainState.travel_time_used)).bind listMax?

/-- `state::Network::take_available_actions`: for every fleet index and
every action available to that train, commit the action to that train and
pair the new state with the cost delta `new − current` (truncated `Nat`
subtraction standing for the `u32` subtraction). -/
def StateNetwork.take_available_actions (s : StateNetwork) : Option (List (StateNetwork × Nat)) :=
  s.travel_time_used.bind (fun ttu =>
    (optList (s.train_states.enum.map (fun it =>
      optList ((it.2.available_actions s.untaken_actions).map (fun a =>
        let s' : StateNetwork :=
          { s with train_states := s.train_states.set it.1 (it.2.take_action a) }
        s'.travel_time_used.map (fun c => (s', c - ttu))))))).map List.flatten)

/-- `state::Network::new`: empty histories, shared route map, required
actions from the packages. -/
def StateNetwork.new (net : Network) : StateNetwork :=
  { train_states := net.trains.map (fun tr =>
      { train := tr, taken_actions := [], route_map := net.route_map }),
    required_actions := net.actions }

/-- The states reachable from `s₀` by successor generation. -/
inductive Reach (s₀ : StateNetwork) : StateNetwork → Prop where
  | refl : Reach s₀ s₀
  | step {s : StateNetwork} {l : List (StateNetwork × Nat)} {s' : StateNetwork} {d : Nat} :
      Reach s₀ s → s.take_available_actions = some l → (s', d) ∈ l → Reach s₀ s'

/-! ## Instruction synthesis (`state.rs`) -/

/-- An instruction (`Instruction`): begin time, train, traversed directed
route, and the packages picked at its origin / dropped at its target
(`Vec<Package>` on both sides in this draft). -/
structure Instruction where
  begin_at : Nat
  train : Train
  route : Route
  picked_package : List Package
  dropped_package : List Package
deriving DecidableEq, Repr

/-- The loop body of `Train::sub_instructions`: one instruction per route
of the path, begin time advancing by each route's travel time; only the
last edge of the path is tagged, and only for a `Drop`. -/
def subInstrCore (train : Train) (a : Action) : List Route → Nat → List Instruction
  | [], _ => []
  | [r], b =>
    [{ begin_at := b, train := train, route := r, picked_package := [],
       dropped_package := match a with | .Drop p _ => [p] | .Pick _ _ => [] }]
  | r :: r' :: rest, b =>
    { begin_at := b, train := train, route := r, picked_package := [],
      dropped_package := [] } :: subInstrCore train a (r' :: rest) (b + r.travel_time)

/-- `Train::sub_instructions`: the per-edge instructions of one path
segment; a `Pick` additionally emits a zero-time instruction on the pickup
station's identity edge, tagged with the picked package, at the clock value
reached after the whole path. -/
def TrainState.sub_instructions (t : TrainState) (rp : RoutePath) (a : Action)
    (begin_at : Nat) : List Instruction :=
  subInstrCore t.train a rp.routes begin_at ++
    match a with
    | .Pick p st =>
      [{ begin_at := begin_at + rp.travel_time, train := t.train,
         route := Route.identity st, picked_package := [p], dropped_package := [] }]
    | .Drop _ _ => []

/-- The `zip(route_paths, taken_actions)` loop of `Train::instructions`:
concatenate the segments, the clock advancing by each path's travel
time. -/
def rawSegments (t : TrainState) : List (RoutePath × Action) → Nat → List Instruction
  | [], _ => []
  | (rp, a) :: rest, b =>
    t.sub_instructions rp a b ++ rawSegments t rest (b + rp.travel_time)

/-- An identity edge: equal endpoints and zero travel time. -/
def Route.is_identity (r : Route) : Bool :=
  r.fromStation == r.toStation && r.travel_time == 0

/-- Modelled from the spec: `Instruction::combine` of the missing parent
module (§4.G, §9): when the earlier instruction stands still on a zero-time
identity edge at the next route's origin, fold it into the next
instruction, keeping the earlier begin time and merging the package
annotations; otherwise keep both. -/
def Instruction.combine (i j : Instruction) : List Instruction :=
  if i.route.is_identity && (i.route.toStation == j.route.fromStation) then
    [{ begin_at := i.begin_at, train := i.train, route := j.route,
       picked_package := i.picked_package ++ j.picked_package,
       dropped_package := i.dropped_package ++ j.dropped_package }]
  else [i, j]

/-- One step of the coalescing fold of `Train::instructions`
(`acc.pop()` then `acc.extend(last.combine(next))`). -/
def combineStep (acc : List Instruction) (next : Instruction) : List Instruction :=
  match acc.getLast? with
  | none => [next]
  | some last => acc.dropLast ++ last.combine next

/-- The coalescing fold of `Train::instructions`. -/
def combineFold (l : List Instruction) : List Instruction :=
  l.foldl combineStep []

/-- `Train::instructions`: raw per-segment instructions, then the
coalescing fold.  `none` when a route-map lookup inside `route_paths`
fails. -/
def TrainState.instructions (t : TrainState) : Option (List Instruction) :=
  t.route_paths.map (fun rps => combineFold (rawSegments t (rps.zip t.taken_actions) 0))

/-- `state::Network::instructions`: concatenation over the fleet. -/
def StateNetwork.instructions (s : StateNetwork) : Option (List Instruction) :=
  (optList (s.train_states.map TrainState.instructions)).map List.flatten

/-- Modelled from the spec: the route doubling of §3/§4.A performed by the
missing parent module — each input route induces two directed routes, the
original and its reverse, with equal travel time and a distinct synthetic
name. -/
def doubledRoutes (rs : List Route) : List Route :=
  rs.flatMap (fun r =>
    [r, { name := r.name ++ "#rev",
          station_pair := (r.station_pair.2, r.station_pair.1),
          travel_time := r.travel_time }])

/-! ## Generic list lemmas -/

theorem le_foldl_max (xs : List Nat) : ∀ x : Nat, x ≤ xs.foldl max x := by
  induction xs with
  | nil => simp
  | cons y ys ih =>
    intro x
    exact le_trans (Nat.le_max_left x y) (ih (max x y))

theorem mem_le_foldl_max (xs : List Nat) : ∀ x y : Nat, y ∈ xs → y ≤ xs.foldl max x := by
  induction xs with
  | nil => simp
  | cons z zs ih =>
    intro x y hy
    rcases List.mem_cons.mp hy with h | h
    · subst h
      exact le_trans (Nat.le_max_right x y) (le_foldl_max zs (max x y))
    · exact ih (max x z) y h

theorem foldl_max_mem (xs : List Nat) : ∀ x : Nat, xs.foldl max x ∈ x :: xs := by
  induction xs with
  | nil => simp
  | cons y ys ih =>
    intro x
    simp only [List.foldl_cons]
    have h := ih (max x y)
    rcases List.mem_cons.mp h with h | h
    · rw [h]
      rcases max_choice x y with hm | hm <;> rw [hm] <;> simp
    · simp [h]

theorem listMax?_eq_none_iff (l : List Nat) : listMax? l = none ↔ l = [] := by
  cases l <;> simp [listMax?]

theorem listMax?_spec {l : List Nat} {m : Nat} (h : listMax? l = some m) :
    m ∈ l ∧ ∀ x ∈ l, x ≤ m := by
  cases l with
  | nil => simp [listMax?] at h
  | cons x xs =>
    simp only [listMax?, Option.some.injEq] at h
    subst h
    refine ⟨foldl_max_mem xs x, ?_⟩
    intro y hy
    rcases List.mem_cons.mp hy with h | h
    · subst h; exact le_foldl_max xs y
    · exact mem_le_foldl_max xs x y h

theorem foldl_min_le (xs : List Nat) : ∀ x : Nat, xs.foldl min x ≤ x := by
  induction xs with
  | nil => simp
  | cons y ys ih =>
    intro x
    exact le_trans (ih (min x y)) (Nat.min_le_left x y)

theorem foldl_min_le_mem (xs : List Nat) : ∀ x y : Nat, y ∈ xs → xs.foldl min x ≤ y := by
  induction xs with
  | nil => simp
  | cons z zs ih =>
    intro x y hy
    rcases List.mem_cons.mp hy with h | h
    · subst h
      exact le_trans (foldl_min_le zs (min x y)) (Nat.min_le_right x y)
    · exact ih (min x z) y h

theorem foldl_min_mem (xs : List Nat) : ∀ x : Nat, xs.foldl min x ∈ x :: xs := by
  induction xs with
  | nil => simp
  | cons y ys ih =>
    intro x
    simp only [List.foldl_cons]
    have h := ih (min x y)
    rcases List.mem_cons.mp h with h | h
    · rw [h]
      rcases min_choice x y with hm | hm <;> rw [hm] <;> simp
    · simp [h]

theorem listMin?_spec {l : List Nat} {m : Nat} (h : listMin? l = some m) :
    m ∈ l ∧ ∀ x ∈ l, m ≤ x := by
  cases l with
  | nil => simp [listMin?] at h
  | cons x xs =>
    simp only [listMin?, Option.some.injEq] at h
    subst h
    refine ⟨foldl_min_mem xs x, ?_⟩
    intro y hy
    rcases List.mem_cons.mp hy with h | h
    · subst h; exact foldl_min_le xs y
    · exact foldl_min_le_mem xs x y h

theorem listMin?_isSome_of_mem {l : List Nat} {x : Nat} (h : x ∈ l) :
    ∃ m, listMin? l = some m := by
  cases l with
  | nil => simp at h
  | cons y ys => exact ⟨_, rfl⟩

theorem optList_cons_none {α : Type} (os : List (Option α)) :
    optList (none :: os) = none := rfl

theorem optList_cons_some {α : Type} (x : α) (os : List (Option α)) :
    optList (some x :: os) = (optList os).map (fun xs => x :: xs) := by
  simp only [optList, Option.bind_eq_bind, Option.some_bind]
  cases optList os <;> rfl

theorem optList_eq_some_iff {α : Type} {l : List (Option α)} {xs : List α} :
    optList l = some xs ↔ l = xs.map some := by
  constructor
  · intro h
    induction l generalizing xs with
    | nil =>
      simp only [optList, Option.some.injEq] at h
      subst h; rfl
    | cons o os ih =>
      cases o with
      | none => rw [optList_cons_none] at h; simp at h
      | some x =>
        rw [optList_cons_some] at h
        cases hos : optList os with
        | none => rw [hos] at h; simp at h
        | some ys =>
          rw [hos] at h
          have h' : x :: ys = xs := by simpa using h
          subst h'
          simp [ih hos]
  · intro h
    subst h
    induction xs with
    | nil => simp [optList]
    | cons x xs ih => simp [optList_cons_some, ih]

theorem optList_append {α : Type} (l₁ l₂ : List (Option α)) :
    optList (l₁ ++ l₂) =
      (optList l₁).bind (fun a => (optList l₂).map (fun b => a ++ b)) := by
  induction l₁ with
  | nil =>
    simp only [List.nil_append, optList]
    cases optList l₂ <;> rfl
  | cons o os ih =>
    cases o with
    | none => simp [optList_cons_none]
    | some x =>
      rw [List.cons_append, optList_cons_some, optList_cons_some, ih]
      cases optList os <;> cases optList l₂ <;> rfl

theorem zip_init_append {α : Type} (xs : List α) :
    ∀ (i x : α), (i :: (xs ++ [x])).zip (xs ++ [x]) =
      ((i :: xs).zip xs) ++ [(xs.getLastD i, x)] := by
  induction xs with
  | nil => intro i x; simp
  | cons y ys ih =>
    intro i x
    simp only [List.cons_append, List.zip_cons_cons, ih y x, List.getLastD_cons]

/-! ## Concrete networks used to instantiate the theorems -/

def stA : Station := ⟨"A"⟩

def stB : Station := ⟨"B"⟩

def routeAB : Route := ⟨"AB", (stA, stB), 7⟩

def pkgP : Package := ⟨"P", 3, (stA, stB)⟩

def trnT : Train := ⟨"T", 5, stA⟩

/-- A feasible single-train network: `A —7— B`, one weight-3 package
`A → B`, one capacity-5 train at `A`. -/
def netAB : Network :=
  { stations := [stA, stB], routes := doubledRoutes [routeAB],
    packages := [pkgP], trains := [trnT] }

/-- The same network with a capacity-0 train: the package fits on no
train, so it can never be delivered. -/
def netInf : Network :=
  { stations := [stA, stB], routes := doubledRoutes [routeAB],
    packages := [pkgP], trains := [⟨"T0", 0, stA⟩] }

/-! ## C10: makespan of the fleet -/

/-- **C10.** The planner-state makespan is only defined for a non-empty
fleet: with at least one train (and every per-train accumulated travel
time defined) it is the maximum over the fleet of the accumulated travel
times — a train with no taken actions contributing `0` — while for an
empty train list the `max().unwrap()` panics, i.e. the total embedding
returns `none`. -/
theorem travel_time_used_max_or_none (s : StateNetwork) :
    (s.train_states = [] → s.travel_time_used = none) ∧
    (∀ vs, optList (s.train_states.map TrainState.travel_time_used) = some vs →
      s.train_states ≠ [] →
      ∃ m, s.travel_time_used = some m ∧ m ∈ vs ∧ ∀ x ∈ vs, x ≤ m) ∧
    (∀ t : TrainState, t.taken_actions = [] → t.travel_time_used = some 0) := by
  refine ⟨?_, ?_, ?_⟩
  · intro h
    simp [StateNetwork.travel_time_used, h, optList, listMax?]
  · intro vs hvs hne
    have hvs' := optList_eq_some_iff.mp hvs
    have hlen : s.train_states.length = vs.length := by
      have := congrArg List.length hvs'
      simpa using this
    have hvne : vs ≠ [] := by
      intro h
      apply hne
      rw [h] at hlen
      exact List.length_eq_zero.mp (by simpa using hlen)
    cases hm : listMax? vs with
    | none => exact absurd ((listMax?_eq_none_iff vs).mp hm) hvne
    | some m =>
      refine ⟨m, ?_, listMax?_spec hm⟩
      simp [StateNetwork.travel_time_used, hvs, hm]
  · intro t ht
    simp [TrainState.travel_time_used, TrainState.route_paths, ht]

/-- Closed instance of `travel_time_used_max_or_none` on the concrete
single-train network. -/
theorem travel_time_used_max_or_none_w :
    ∃ m, (StateNetwork.new netAB).travel_time_used = some m ∧ m ∈ [0] ∧ ∀ x ∈ [0], x ≤ m :=
  (travel_time_used_max_or_none (StateNetwork.new netAB)).2.1 [0] (by rfl) (by decide)

/-! ## C7: equality and hashing of planner states -/

/-- Pointwise list equality by a comparator (`Vec::eq` with the element
`PartialEq`). -/
def listEqBy {α : Type} (f : α → α → Bool) : List α → List α → Bool
  | [], [] => true
  | x :: xs, y :: ys => f x y && listEqBy f xs ys
  | _, _ => false

/-- `PartialEq for state::Train`: the static train record and the action
history; the route-map handle is excluded. -/
def TrainState.eqImpl (a b : TrainState) : Bool :=
  a.train == b.train && a.taken_actions == b.taken_actions

/-- `PartialEq for state::Network`: the fleet vector only; the
`required_actions` list is excluded. -/
def StateNetwork.eqImpl (a b : StateNetwork) : Bool :=
  listEqBy TrainState.eqImpl a.train_states b.train_states

/-- The data fed to the hasher by `Hash for state::Network` (which hashes
`train_states` only) and `Hash for state::Train` (which hashes the train
record and the history, not the route map). -/
def StateNetwork.hashData (s : StateNetwork) : List (Train × List Action) :=
  s.train_states.map (fun t => (t.train, t.taken_actions))

/-- **C7.** Equality and hashing on planner states depend only on the
per-train fleet vector (train identity plus ordered action history): two
states whose fleet vectors agree compare equal and hash equal, for every
hasher, regardless of their required-action lists or route-map handles. -/
theorem state_eq_hash_fleet_only (H : List (Train × List Action) → Nat)
    (s1 s2 : StateNetwork) (h : s1.hashData = s2.hashData) :
    s1.eqImpl s2 = true ∧ H s1.hashData = H s2.hashData := by
  refine ⟨?_, by rw [h]⟩
  unfold StateNetwork.eqImpl
  unfold StateNetwork.hashData at h
  generalize hl1 : s1.train_states = l1 at h
  generalize hl2 : s2.train_states = l2 at h
  clear hl1 hl2
  induction l1 generalizing l2 with
  | nil =>
    cases l2 with
    | nil => rfl
    | cons y ys => simp at h
  | cons x xs ih =>
    cases l2 with
    | nil => simp at h
    | cons y ys =>
      simp only [List.map_cons, List.cons.injEq, Prod.mk.injEq] at h
      obtain ⟨⟨h1, h2⟩, h3⟩ := h
      simp only [listEqBy, TrainState.eqImpl, Bool.and_eq_true]
      exact ⟨⟨by simp [h1], by simp [h2]⟩, ih ys h3⟩

/-- Closed instance of `state_eq_hash_fleet_only`: two states with equal
fleet vectors but different required-action lists and different route
maps. -/
theorem state_eq_hash_fleet_only_w :
    StateNetwork.eqImpl
        { train_states := [{ train := trnT, taken_actions := [], route_map := netAB.route_map }],
          required_actions := netAB.actions }
        { train_states := [{ train := trnT, taken_actions := [], route_map := [] }],
          required_actions := [] } = true ∧
      List.length
          (StateNetwork.hashData
            { train_states := [{ train := trnT, taken_actions := [], route_map := netAB.route_map }],
              required_actions := netAB.actions }) =
        List.length
          (StateNetwork.hashData
            { train_states := [{ train := trnT, taken_actions := [], route_map := [] }],
              required_actions := [] }) :=
  state_eq_hash_fleet_only List.length
    { train_states := [{ train := trnT, taken_actions := [], route_map := netAB.route_map }],
      required_actions := netAB.actions }
    { train_states := [{ train := trnT, taken_actions := [], route_map := [] }],
      required_actions := [] } (by rfl)

/-! ## C2: the goal test -/

/-- **C2 (amended).** The goal test returns `true` iff no train can take
any of the still-untaken actions.  When every required action has been
taken it therefore returns `true`; but it can also return `true` while
required actions remain untaken, namely when no train can take any of them
(see `is_success_not_all_taken_cex`). -/
theorem is_success_iff_no_available (s : StateNetwork) :
    (s.is_success = true ↔
      ∀ a ∈ s.untaken_actions, ∀ t ∈ s.train_states, t.can_take a = false) ∧
    (s.untaken_actions = [] → s.is_success = true) := by
  have key : s.is_success = true ↔
      ∀ a ∈ s.untaken_actions, ∀ t ∈ s.train_states, t.can_take a = false := by
    unfold StateNetwork.is_success StateNetwork.available_actions
      TrainState.available_actions
    rw [List.isEmpty_iff, List.dedup_eq_nil, List.flatMap_eq_nil_iff]
    constructor
    · intro h a ha t ht
      have := List.filter_eq_nil_iff.mp (h t ht) a ha
      simpa using this
    · intro h t ht
      exact List.filter_eq_nil_iff.mpr (fun a ha => by simp [h a ha t ht])
  refine ⟨key, ?_⟩
  intro h
  exact key.mpr (by simp [h])

/-- Counterexample to **C2** as stated: on the network whose only train
has capacity `0`, the initial planner state is accepted by the goal test
even though both required actions of the package are still untaken. -/
theorem is_success_not_all_taken_cex :
    (StateNetwork.new netInf).is_success = true ∧
      (StateNetwork.new netInf).untaken_actions ≠ [] := by
  constructor
  · rfl
  · decide

/-- Closed instance of `is_success_iff_no_available` at the initial state
of the feasible network, discharging its embedded implication: there the
untaken list is nonempty and a `Pick` is takeable, so `is_success` is
`false`. -/
theorem is_success_iff_no_available_w :
    ((StateNetwork.new netAB).is_success = true ↔
      ∀ a ∈ (StateNetwork.new netAB).untaken_actions,
        ∀ t ∈ (StateNetwork.new netAB).train_states, t.can_take a = false) ∧
    ((StateNetwork.new netAB).untaken_actions = [] →
      (StateNetwork.new netAB).is_success = true) :=
  is_success_iff_no_available (StateNetwork.new netAB)

/-! ## C4: behavior on undeliverable packages -/

/-- **C4.** On the network `netInf`, whose package fits on no train, the
code does *not* surface an infeasibility error: the initial state already
passes the goal test (its actions are unavailable to every train), so the
search returns it as a goal of cost `0` with the package never picked.
There is no `Infeasible` error path in the code. -/
theorem infeasible_initial_state_is_goal :
    (StateNetwork.new netInf).is_success = true ∧
      Action.Pick pkgP stA ∈ (StateNetwork.new netInf).untaken_actions ∧
      Action.Drop pkgP stB ∈ (StateNetwork.new netInf).untaken_actions ∧
      (∀ t ∈ (StateNetwork.new netInf).train_states,
        t.can_take (Action.Pick pkgP stA) = false) ∧
      (StateNetwork.new netInf).travel_time_used = some 0 := by
  refine ⟨by rfl, by decide, by decide, by decide, by rfl⟩

/-! ## C5: successor cost never drops below the current cost -/

/-- The derived position of a train after a history: initial station when
empty, otherwise the station of the last action (§4.E). -/
def lastStation (init : Station) (l : List Action) : Station :=
  (l.map Action.station).getLastD init

theorem routePairs_append (init : Station) (l : List Action) (a : Action) :
    routePairs init (l ++ [a]) =
      routePairs init l ++ [(lastStation init l, a.station)] := by
  unfold routePairs lastStation
  rw [List.map_append]
  exact zip_init_append (l.map Action.station) init a.station

/-- The early `return vec![]` of `Train::route_paths` coincides with the
general branch, whose pair list is then empty. -/
theorem route_paths_eq (t : TrainState) :
    t.route_paths =
      optList ((routePairs t.train.initial_station t.taken_actions).map
        (rmLookup t.route_map)) := by
  unfold TrainState.route_paths
  by_cases h : t.taken_actions = []
  · rw [if_pos h, h]; rfl
  · rw [if_neg h]

/-- Appending one action extends the route-path chain by exactly the path
from the train's current position to the action's station. -/
theorem route_paths_append (t : TrainState) (a : Action) :
    TrainState.route_paths { t with taken_actions := t.taken_actions ++ [a] } =
      t.route_paths.bind (fun rps =>
        (rmLookup t.route_map
            (lastStation t.train.initial_station t.taken_actions, a.station)).map
          (fun rp => rps ++ [rp])) := by
  rw [route_paths_eq, route_paths_eq]
  dsimp only
  rw [routePairs_append, List.map_append, optList_append]
  rw [show ((([(lastStation t.train.initial_station t.taken_actions, a.station)]).map
    (rmLookup t.route_map))) =
    [rmLookup t.route_map (lastStation t.train.initial_station t.taken_actions, a.station)]
    from rfl]
  cases optList ((routePairs t.train.initial_station t.taken_actions).map
      (rmLookup t.route_map)) with
  | none => rfl
  | some rps =>
    cases rmLookup t.route_map
        (lastStation t.train.initial_station t.taken_actions, a.station) with
    | none => simp [optList, optList_cons_none]
    | some rp => simp [optList_cons_some, optList]

/-- Committing an action cannot decrease a train's accumulated travel
time. -/
theorem travel_time_used_take_action_le {t : TrainState} {a : Action} {v v' : Nat}
    (hv : t.travel_time_used = some v)
    (hv' : (t.take_action a).travel_time_used = some v') : v ≤ v' := by
  unfold TrainState.take_action at hv'
  by_cases hc : t.can_take a = true
  · rw [if_pos hc] at hv'
    unfold TrainState.travel_time_used at hv hv'
    rw [route_paths_append] at hv'
    cases hrp : t.route_paths with
    | none => rw [hrp] at hv; simp at hv
    | some rps =>
      rw [hrp] at hv hv'
      cases hlk : rmLookup t.route_map
          (lastStation t.train.initial_station t.taken_actions, a.station) with
      | none => rw [hlk] at hv'; simp at hv'
      | some rp =>
        rw [hlk] at hv'
        simp only [Option.map_some', Option.some_bind, Option.some.injEq] at hv hv'
        subst hv hv'
        simp [Nat.le_add_right]
  · rw [if_neg hc] at hv'
    rw [hv] at hv'
    exact le_of_eq (by injection hv')

/-- In a pointwise `some` image, every element of the result is hit by an
element of the source. -/
theorem map_eq_map_some_mem {α β : Type} {f : α → Option β} {l : List α} {ys : List β}
    (h : l.map f = ys.map some) : ∀ y ∈ ys, ∃ x ∈ l, f x = some y := by
  induction l generalizing ys with
  | nil =>
    cases ys with
    | nil => simp
    | cons y ys' => simp at h
  | cons x xs ih =>
    cases ys with
    | nil => simp at h
    | cons y ys' =>
      simp only [List.map_cons, List.cons.injEq] at h
      intro z hz
      rcases List.mem_cons.mp hz with hz | hz
      · exact ⟨x, List.mem_cons_self x xs, hz ▸ h.1⟩
      · obtain ⟨x', hx', hfx'⟩ := ih h.2 z hz
        exact ⟨x', List.mem_cons_of_mem x hx', hfx'⟩

/-- Raising one entry of a list cannot decrease its maximum. -/
theorem listMax?_set_le {vs : List Nat} {i : Nat} {v v' m m' : Nat}
    (hi : vs[i]? = some v) (hvv' : v ≤ v')
    (hm : listMax? vs = some m) (hm' : listMax? (vs.set i v') = some m') : m ≤ m' := by
  obtain ⟨hmem, hub⟩ := listMax?_spec hm
  obtain ⟨hmem', hub'⟩ := listMax?_spec hm'
  have hilen : i < vs.length := by
    by_contra hge
    rw [List.getElem?_eq_none (Nat.le_of_not_lt hge)] at hi
    exact Option.noConfusion hi
  obtain ⟨j, hj, hje⟩ := List.mem_iff_getElem.mp hmem
  by_cases hij : i = j
  · subst hij
    have hv : m = v := by
      rw [List.getElem?_eq_getElem hj] at hi
      injection hi with hi
      rw [← hje, hi]
    have : v' ∈ vs.set i v' := by
      rw [List.mem_iff_getElem]
      exact ⟨i, by simpa using hilen, by simp [List.getElem_set_self]⟩
    exact le_trans (hv ▸ hvv') (hub' v' this)
  · have : m ∈ vs.set i v' := by
      rw [List.mem_iff_getElem?]
      refine ⟨j, ?_⟩
      rw [List.getElem?_set_ne hij]
      rw [List.getElem?_eq_getElem hj, hje]
    exact hub' m this

/-- Anatomy of a generated successor: it replaces the fleet entry at one
index by that train with one of its available actions committed, its cost
is defined, and the recorded delta is the truncated difference of the two
costs. -/
theorem mem_take_available_actions {s : StateNetwork} {l : List (StateNetwork × Nat)}
    (h : s.take_available_actions = some l)
    {s' : StateNetwork} {d : Nat} (hm : (s', d) ∈ l) :
    ∃ c i t a c', s.travel_time_used = some c ∧
      i < s.train_states.length ∧ s.train_states[i]? = some t ∧
      a ∈ t.available_actions s.untaken_actions ∧
      s' = { s with train_states := s.train_states.set i (t.take_action a) } ∧
      s'.travel_time_used = some c' ∧ d = c' - c := by
  unfold StateNetwork.take_available_actions at h
  cases httu : s.travel_time_used with
  | none => rw [httu] at h; exact Option.noConfusion h
  | some c =>
    rw [httu, Option.some_bind, Option.map_eq_some'] at h
    obtain ⟨ll, hop, hfl⟩ := h
    subst hfl
    obtain ⟨li, hli, hmem⟩ := List.mem_flatten.mp hm
    have hchar := optList_eq_some_iff.mp hop
    obtain ⟨it, hit, hgit⟩ := map_eq_map_some_mem hchar li hli
    obtain ⟨hitlen, hitval⟩ := List.mem_enum hit
    have hchar2 := optList_eq_some_iff.mp hgit
    obtain ⟨a, ha, hga⟩ := map_eq_map_some_mem hchar2 (s', d) hmem
    simp only [Option.map_eq_some'] at hga
    obtain ⟨c', hc', heq⟩ := hga
    have hs' : s' = { s with train_states := s.train_states.set it.1 (it.2.take_action a) } :=
      (congrArg Prod.fst heq).symm
    have hd : d = c' - c := (congrArg Prod.snd heq).symm
    refine ⟨c, it.1, it.2, a, c', rfl, hitlen, ?_, ha, hs', ?_, hd⟩
    · rw [List.getElem?_eq_getElem hitlen, hitval]
    · rw [hs']
      exact hc'

/-- **C5.** For every planner state and every successor produced by
`take_available_actions`, the successor's makespan is at least the current
state's makespan, so the unsigned cost-delta subtraction never underflows:
the emitted delta is exactly `c' - c` with `c ≤ c'`. -/
theorem successor_cost_ge (s : StateNetwork) {l : List (StateNetwork × Nat)}
    (h : s.take_available_actions = some l)
    {s' : StateNetwork} {d : Nat} (hm : (s', d) ∈ l) :
    ∃ c c', s.travel_time_used = some c ∧ s'.travel_time_used = some c' ∧
      c ≤ c' ∧ d = c' - c := by
  obtain ⟨c, i, t, a, c', hc, hilen, hit, _ha, hs', hc', hd⟩ :=
    mem_take_available_actions h hm
  refine ⟨c, c', hc, hc', ?_, hd⟩
  unfold StateNetwork.travel_time_used at hc hc'
  cases hov : optList (s.train_states.map TrainState.travel_time_used) with
  | none => rw [hov] at hc; exact Option.noConfusion hc
  | some vs =>
    rw [hov] at hc
    have hfleet' : s'.train_states = s.train_states.set i (t.take_action a) := by
      rw [hs']
    cases hov' : optList (s'.train_states.map TrainState.travel_time_used) with
    | none => rw [hov'] at hc'; exact Option.noConfusion hc'
    | some vs' =>
      rw [hov'] at hc'
      have hchar := optList_eq_some_iff.mp hov
      have hchar' := optList_eq_some_iff.mp hov'
      -- the i-th train of s has a defined travel time vs.get i
      have hleni : i < vs.length := by
        have hlen := congrArg List.length hchar
        simp only [List.length_map] at hlen
        omega
      have htv : t.travel_time_used = some (vs.get ⟨i, hleni⟩) := by
        have h1 : (s.train_states.map TrainState.travel_time_used)[i]? =
            some (t.travel_time_used) := by
          rw [List.getElem?_map, hit]
          rfl
        rw [hchar, List.getElem?_map, List.getElem?_eq_getElem hleni] at h1
        simp only [Option.map_some'] at h1
        simp only [List.get_eq_getElem]
        exact (Option.some.inj h1).symm
      -- the i-th train of s' has travel time vs'.get i, and vs' = vs.set i _
      have hmap' : s'.train_states.map TrainState.travel_time_used =
          (vs.map some).set i ((t.take_action a).travel_time_used) := by
        rw [hfleet', List.map_set, hchar]
      rw [hmap'] at hchar'
      have hleni' : i < vs'.length := by
        have hlen := congrArg List.length hchar'
        simp only [List.length_set, List.length_map] at hlen
        omega
      have htv' : (t.take_action a).travel_time_used = some (vs'.get ⟨i, hleni'⟩) := by
        have h1 : ((vs.map some).set i ((t.take_action a).travel_time_used))[i]? =
            some ((t.take_action a).travel_time_used) :=
          List.getElem?_set_self (by simpa using hleni)
        rw [hchar', List.getElem?_map, List.getElem?_eq_getElem hleni'] at h1
        simp only [Option.map_some'] at h1
        simp only [List.get_eq_getElem]
        exact (Option.some.inj h1).symm
      have hvv' : vs.get ⟨i, hleni⟩ ≤ vs'.get ⟨i, hleni'⟩ :=
        travel_time_used_take_action_le htv htv'
      have hset : vs' = vs.set i (vs'.get ⟨i, hleni'⟩) := by
        have h2 : (vs.map some).set i (some (vs'.get ⟨i, hleni'⟩)) = vs'.map some := by
          rw [← htv', ← hchar']
        rw [← List.map_set] at h2
        exact ((List.map_injective_iff.mpr (fun a b => Option.some.inj)) h2).symm
      have hgi : vs[i]? = some (vs.get ⟨i, hleni⟩) := by
        simp only [List.get_eq_getElem]
        exact List.getElem?_eq_getElem hleni
      rw [Option.some_bind] at hc hc'
      have hmax' : listMax? (vs.set i (vs'.get ⟨i, hleni'⟩)) = some c' := by
        rw [← hset]
        exact hc'
      exact listMax?_set_le hgi hvv' hc hmax'

/-- The successor of the initial `netAB` state in which the train has
committed `Pick(P, A)`. -/
def sPickAB : StateNetwork :=
  ⟨[⟨trnT, [Action.Pick pkgP stA], netAB.route_map⟩], netAB.actions⟩

/-- Closed instance of `successor_cost_ge` at the initial state of the
concrete network and its unique successor. -/
theorem successor_cost_ge_w :
    ∃ c c', (StateNetwork.new netAB).travel_time_used = some c ∧
      sPickAB.travel_time_used = some c' ∧ c ≤ c' ∧ 0 = c' - c :=
  successor_cost_ge (StateNetwork.new netAB)
    (l := [(sPickAB, 0)]) (by decide) (List.mem_singleton.mpr rfl)

/-! ## C3: cargo weight never exceeds capacity -/

theorem mem_of_getElem?_some {α : Type} {l : List α} {i : Nat} {a : α}
    (h : l[i]? = some a) : a ∈ l := by
  obtain ⟨hlt, he⟩ := List.getElem?_eq_some.mp h
  exact he ▸ List.getElem_mem hlt

/-- Committing any action through `take_action` preserves the capacity
bound: a `Pick` is only appended when it fits, a `Drop` only removes
cargo. -/
theorem current_weight_take_action_le {t : TrainState} (a : Action)
    (h : t.current_weight ≤ t.train.capacity) :
    (t.take_action a).current_weight ≤ (t.take_action a).train.capacity := by
  unfold TrainState.take_action
  by_cases hc : t.can_take a = true
  · rw [if_pos hc]
    cases a with
    | Pick p st =>
      have hfit : p.weight + t.current_weight ≤ t.train.capacity := by
        unfold TrainState.can_take TrainState.can_pick at hc
        exact of_decide_eq_true ((Bool.and_eq_true _ _).mp hc).2
      have hsingle : ∀ (q : Package → Bool),
          ((List.filter q [p]).map Package.weight).sum ≤ p.weight := by
        intro q
        cases hq : q p <;> simp [List.filter_cons, hq]
      unfold TrainState.current_weight TrainState.current_packages
        pickedPackages droppedPackages at hfit ⊢
      simp only [List.filterMap_append, List.filterMap_cons, List.filterMap_nil,
        List.append_nil, List.filter_append, List.map_append, List.sum_append]
      refine le_trans (Nat.add_le_add le_rfl (hsingle _)) ?_
      omega
    | Drop p st =>
      unfold TrainState.current_weight TrainState.current_packages at h ⊢
      simp only
      unfold pickedPackages droppedPackages at h ⊢
      rw [List.filterMap_append, List.filterMap_append]
      simp only [List.filterMap_cons, List.filterMap_nil, List.append_nil]
      apply le_trans _ h
      apply List.Sublist.sum_le_sum _ (fun x _ => Nat.zero_le x)
      apply List.Sublist.map
      apply List.monotone_filter_right
      intro q hq
      simp only [Bool.not_eq_true'] at hq ⊢
      simp at hq ⊢
      exact hq.1
  · rw [if_neg hc]
    exact h

/-- A `Pick` in a train's available subset passes both feasibility gates:
the route map reaches the pickup from the train's initial station and the
package fits into the remaining capacity. -/
theorem pick_available_gates {t : TrainState} {actions : List Action} {p : Package}
    {st : Station} (h : Action.Pick p st ∈ t.available_actions actions) :
    (rmLookup t.route_map (t.train.initial_station, p.fromStation)).isSome = true ∧
      p.weight + t.current_weight ≤ t.train.capacity := by
  have hf := List.of_mem_filter h
  unfold TrainState.can_take TrainState.can_pick at hf
  have hsplit := (Bool.and_eq_true _ _).mp hf
  exact ⟨hsplit.1, of_decide_eq_true hsplit.2⟩

/-- **C3.** In every planner state reachable from the initial state, every
train's cargo weight is at most its capacity; moreover a `Pick` is only
offered to a train when the route map holds a path from the train's
initial station to the pickup station and the package's weight plus the
current cargo weight stays within capacity. -/
theorem reachable_cargo_within_capacity (net : Network) (s : StateNetwork)
    (h : Reach (StateNetwork.new net) s) :
    (∀ t ∈ s.train_states, t.current_weight ≤ t.train.capacity) ∧
    (∀ t ∈ s.train_states, ∀ p st,
      Action.Pick p st ∈ t.available_actions s.untaken_actions →
      (rmLookup t.route_map (t.train.initial_station, p.fromStation)).isSome = true ∧
        p.weight + t.current_weight ≤ t.train.capacity) := by
  refine ⟨?_, fun t _ p st hp => pick_available_gates hp⟩
  induction h with
  | refl =>
    intro t ht
    unfold StateNetwork.new at ht
    obtain ⟨tr, _, rfl⟩ := List.mem_map.mp ht
    unfold TrainState.current_weight TrainState.current_packages pickedPackages
    simp
  | step hreach hsucc hmem ih =>
    intro t ht
    obtain ⟨c, i, t₀, a, c', _, _, hit, ha, hs', _, _⟩ :=
      mem_take_available_actions hsucc hmem
    rw [hs'] at ht
    simp only at ht
    rcases List.mem_or_eq_of_mem_set ht with hold | hnew
    · exact ih t hold
    · subst hnew
      exact current_weight_take_action_le a (ih t₀ (mem_of_getElem?_some hit))

/-- The train state of the initial `netAB` planner state. -/
def tsInitAB : TrainState := ⟨trnT, [], netAB.route_map⟩

/-- Closed instance of `reachable_cargo_within_capacity` at the initial
state of the concrete network (reached by `Reach.refl`), evaluated at its
single train and the pick of the concrete package. -/
theorem reachable_cargo_within_capacity_w :
    tsInitAB.current_weight ≤ tsInitAB.train.capacity ∧
      ((rmLookup tsInitAB.route_map (tsInitAB.train.initial_station, pkgP.fromStation)).isSome
          = true ∧
        pkgP.weight + tsInitAB.current_weight ≤ tsInitAB.train.capacity) := by
  have h := reachable_cargo_within_capacity netAB (StateNetwork.new netAB) Reach.refl
  exact ⟨h.1 tsInitAB (by decide), h.2 tsInitAB (by decide) pkgP stA (by decide)⟩

/-! ## C1: availability of `Drop` actions -/

theorem flatMap_decomp {α β : Type} (f : α → List β) :
    ∀ (l : List α) (i : Nat) (hi : i < l.length),
      l.flatMap f =
        (l.take i).flatMap f ++ f (l.get ⟨i, hi⟩) ++ (l.drop (i + 1)).flatMap f := by
  intro l
  induction l with
  | nil => intro i hi; simp at hi
  | cons x xs ih =>
    intro i hi
    cases i with
    | zero => simp
    | succ i' =>
      have hi' : i' < xs.length := by simpa using hi
      simp only [List.flatMap_cons, List.take_succ_cons, List.drop_succ_cons,
        List.get_cons_succ, ih i' hi']
      simp [List.append_assoc]

theorem flatMap_set {α β : Type} (f : α → List β) :
    ∀ (l : List α) (i : Nat) (x : α), i < l.length →
      (l.set i x).flatMap f =
        (l.take i).flatMap f ++ f x ++ (l.drop (i + 1)).flatMap f := by
  intro l
  induction l with
  | nil => intro i x hi; simp at hi
  | cons y ys ih =>
    intro i x hi
    cases i with
    | zero => simp
    | succ i' =>
      have hi' : i' < ys.length := by simpa using hi
      simp only [List.set_cons_succ, List.flatMap_cons, List.take_succ_cons,
        List.drop_succ_cons, ih i' x hi']
      simp [List.append_assoc]

theorem nodup_insert_middle {α : Type} {A m B : List α} {a : α}
    (h : (A ++ m ++ B).Nodup) (ha : a ∉ A ++ m ++ B) :
    (A ++ (m ++ [a]) ++ B).Nodup := by
  simp only [List.nodup_append, List.mem_append, List.nodup_cons, List.nodup_nil,
    List.disjoint_left, List.mem_singleton, List.not_mem_nil, not_false_eq_true,
    and_true, true_and] at h ha ⊢
  push_neg at ha
  obtain ⟨⟨hA, hm, hAm⟩, hB, hAmB⟩ := h
  obtain ⟨⟨haA, ham⟩, haB⟩ := ha
  refine ⟨⟨hA, ⟨hm, ?_⟩, ?_⟩, hB, ?_⟩
  · intro x hx he
    exact ham (he ▸ hx)
  · intro x hxA hor
    rcases hor with hx | hx
    · exact hAm hxA hx
    · exact haA (hx ▸ hxA)
  · intro x hx hxB
    rcases hx with hx | hx | hx
    · exact hAmB (Or.inl hx) hxB
    · exact hAmB (Or.inr hx) hxB
    · exact haB (hx ▸ hxB)

theorem get_mem_of_lt {α : Type} (l : List α) (i : Nat) (hi : i < l.length) :
    l.get ⟨i, hi⟩ ∈ l := by
  simp only [List.get_eq_getElem]
  exact List.getElem_mem hi

theorem sum_two_indices :
    ∀ (l : List Nat) (i j : Nat) (hi : i < l.length) (hj : j < l.length), i ≠ j →
      l.get ⟨i, hi⟩ + l.get ⟨j, hj⟩ ≤ l.sum := by
  intro l
  induction l with
  | nil => intro i j hi; simp at hi
  | cons x xs ih =>
    intro i j hi hj hij
    cases i with
    | zero =>
      cases j with
      | zero => exact absurd rfl hij
      | succ j' =>
        have hj' : j' < xs.length := by simpa using hj
        have e1 : (x :: xs).get ⟨0, hi⟩ = x := rfl
        have e2 : (x :: xs).get ⟨j' + 1, hj⟩ = xs.get ⟨j', hj'⟩ := rfl
        rw [e1, e2, List.sum_cons]
        have hle : xs.get ⟨j', hj'⟩ ≤ xs.sum :=
          List.single_le_sum (fun y _ => Nat.zero_le y) _ (get_mem_of_lt xs j' hj')
        omega
    | succ i' =>
      have hi' : i' < xs.length := by simpa using hi
      cases j with
      | zero =>
        have e1 : (x :: xs).get ⟨i' + 1, hi⟩ = xs.get ⟨i', hi'⟩ := rfl
        have e2 : (x :: xs).get ⟨0, hj⟩ = x := rfl
        rw [e1, e2, List.sum_cons]
        have hle : xs.get ⟨i', hi'⟩ ≤ xs.sum :=
          List.single_le_sum (fun y _ => Nat.zero_le y) _ (get_mem_of_lt xs i' hi')
        omega
      | succ j' =>
        have hj' : j' < xs.length := by simpa using hj
        have hij' : i' ≠ j' := fun he => hij (by rw [he])
        have e1 : (x :: xs).get ⟨i' + 1, hi⟩ = xs.get ⟨i', hi'⟩ := rfl
        have e2 : (x :: xs).get ⟨j' + 1, hj⟩ = xs.get ⟨j', hj'⟩ := rfl
        rw [e1, e2, List.sum_cons]
        have := ih i' j' hi' hj' hij'
        omega

theorem count_flatMap {α β : Type} [DecidableEq β] (f : α → List β) (b : β) :
    ∀ (l : List α), List.count b (l.flatMap f) = (l.map (fun x => List.count b (f x))).sum := by
  intro l
  induction l with
  | nil => simp
  | cons x xs ih => simp [List.count_append, ih]

theorem two_getElem_le_count {α : Type} [DecidableEq α] :
    ∀ (l : List α) (v : α) (i j : Nat) (hi : i < l.length) (hj : j < l.length), i ≠ j →
      l.get ⟨i, hi⟩ = v → l.get ⟨j, hj⟩ = v → 2 ≤ List.count v l := by
  intro l
  induction l with
  | nil => intro v i j hi; simp at hi
  | cons x xs ih =>
    intro v i j hi hj hij hvi hvj
    cases i with
    | zero =>
      cases j with
      | zero => exact absurd rfl hij
      | succ j' =>
        have hj' : j' < xs.length := by simpa using hj
        have e1 : (x :: xs).get ⟨0, hi⟩ = x := rfl
        have e2 : (x :: xs).get ⟨j' + 1, hj⟩ = xs.get ⟨j', hj'⟩ := rfl
        rw [e1] at hvi
        rw [e2] at hvj
        have hmem : v ∈ xs := hvj ▸ get_mem_of_lt xs j' hj'
        have hpos := List.count_pos_iff.mpr hmem
        rw [hvi, List.count_cons_self]
        omega
    | succ i' =>
      have hi' : i' < xs.length := by simpa using hi
      have e1 : (x :: xs).get ⟨i' + 1, hi⟩ = xs.get ⟨i', hi'⟩ := rfl
      rw [e1] at hvi
      cases j with
      | zero =>
        have e2 : (x :: xs).get ⟨0, hj⟩ = x := rfl
        rw [e2] at hvj
        have hmem : v ∈ xs := hvi ▸ get_mem_of_lt xs i' hi'
        have hpos := List.count_pos_iff.mpr hmem
        rw [hvj, List.count_cons_self]
        omega
      | succ j' =>
        have hj' : j' < xs.length := by simpa using hj
        have e2 : (x :: xs).get ⟨j' + 1, hj⟩ = xs.get ⟨j', hj'⟩ := rfl
        rw [e2] at hvj
        have hij' : i' ≠ j' := fun he => hij (by rw [he])
        have := ih v i' j' hi' hj' hij' hvi hvj
        rw [List.count_cons]
        omega

/-- Anatomy of the required-action list: every element is the canonical
`Pick` or `Drop` of one of the network's packages. -/
theorem mem_network_actions {net : Network} {a : Action} :
    a ∈ net.actions ↔
      ∃ q ∈ net.packages,
        a = Action.Pick q q.fromStation ∨ a = Action.Drop q q.toStation := by
  unfold Network.actions
  rw [List.mem_flatMap]
  constructor
  · rintro ⟨q, hq, hmem⟩
    rcases List.mem_cons.mp hmem with h | h
    · exact ⟨q, hq, Or.inl h⟩
    · exact ⟨q, hq, Or.inr (by simpa using h)⟩
  · rintro ⟨q, hq, h | h⟩
    · exact ⟨q, hq, by simp [h]⟩
    · exact ⟨q, hq, by simp [h]⟩

/-- Every `Drop` of a history is preceded by a `Pick` of the same package
on the same train. -/
def DropPreceded (l : List Action) : Prop :=
  ∀ j (hj : j < l.length) p st, l.get ⟨j, hj⟩ = Action.Drop p st →
    ∃ i, ∃ hi : i < j, ∃ st',
      l.get ⟨i, Nat.lt_trans hi hj⟩ = Action.Pick p st'

/-- The invariants of states reachable from `StateNetwork.new net`. -/
structure ReachInv (net : Network) (s : StateNetwork) : Prop where
  req : s.required_actions = net.actions
  nodup : s.taken_actions.Nodup
  canonical : ∀ a ∈ s.taken_actions, a ∈ net.actions
  drop_pick : ∀ t ∈ s.train_states, DropPreceded t.taken_actions

/-- Every state reachable by successor generation satisfies the
invariants: required actions are the network's, the union of histories is
duplicate-free and canonical, and every `Drop` has an earlier same-train
`Pick`. -/
theorem reach_inv {net : Network} {s : StateNetwork}
    (h : Reach (StateNetwork.new net) s) : ReachInv net s := by
  induction h with
  | refl =>
    have he : (StateNetwork.new net).taken_actions = [] := by
      unfold StateNetwork.taken_actions StateNetwork.new
      rw [List.flatMap_eq_nil_iff]
      intro x hx
      obtain ⟨tr, _, rfl⟩ := List.mem_map.mp hx
      rfl
    refine ⟨rfl, by rw [he]; exact List.nodup_nil,
      by rw [he]; intro a ha; simp at ha, ?_⟩
    intro t ht
    unfold StateNetwork.new at ht
    obtain ⟨tr, _, rfl⟩ := List.mem_map.mp ht
    intro j hj p st hget
    simp at hj
  | step hreach hsucc hmem ih =>
    rename_i s₀ l s' d
    obtain ⟨c, i, t, a, c', httu, hilen, hit, ha, hs', hc', hd⟩ :=
      mem_take_available_actions hsucc hmem
    have hcan : t.can_take a = true := List.of_mem_filter ha
    have hunt : a ∈ s₀.untaken_actions := List.mem_of_mem_filter ha
    have hreq : a ∈ s₀.required_actions := List.mem_of_mem_filter hunt
    have hnotaken : a ∉ s₀.taken_actions := by
      intro hmem'
      have hc2 := List.of_mem_filter hunt
      rw [Bool.not_eq_true'] at hc2
      have hc3 : s₀.taken_actions.contains a = true := by simpa using hmem'
      rw [hc2] at hc3
      exact Bool.noConfusion hc3
    have htake : t.take_action a = { t with taken_actions := t.taken_actions ++ [a] } := by
      unfold TrainState.take_action
      rw [if_pos hcan]
    have hgt : s₀.train_states.get ⟨i, hilen⟩ = t := by
      rw [List.getElem?_eq_getElem hilen] at hit
      simpa using Option.some.inj hit
    have hdecomp : s₀.taken_actions =
        (s₀.train_states.take i).flatMap TrainState.taken_actions ++ t.taken_actions ++
          (s₀.train_states.drop (i + 1)).flatMap TrainState.taken_actions := by
      unfold StateNetwork.taken_actions
      rw [flatMap_decomp TrainState.taken_actions s₀.train_states i hilen, hgt]
    have hdecomp' : s'.taken_actions =
        (s₀.train_states.take i).flatMap TrainState.taken_actions ++
          (t.taken_actions ++ [a]) ++
          (s₀.train_states.drop (i + 1)).flatMap TrainState.taken_actions := by
      rw [hs']
      unfold StateNetwork.taken_actions
      simp only
      rw [flatMap_set TrainState.taken_actions s₀.train_states i _ hilen, htake]
    refine ⟨?_, ?_, ?_, ?_⟩
    · rw [hs']
      exact ih.req
    · rw [hdecomp']
      apply nodup_insert_middle
      · rw [← hdecomp]; exact ih.nodup
      · rw [← hdecomp]; exact hnotaken
    · intro b hb
      rw [hdecomp'] at hb
      have hsplit : b ∈ s₀.taken_actions ∨ b = a := by
        rw [hdecomp]
        rcases List.mem_append.mp hb with h1 | h1
        · rcases List.mem_append.mp h1 with h2 | h2
          · exact Or.inl (List.mem_append_left _ (List.mem_append_left _ h2))
          · rcases List.mem_append.mp h2 with h3 | h3
            · exact Or.inl (List.mem_append_left _ (List.mem_append_right _ h3))
            · exact Or.inr (List.mem_singleton.mp h3)
        · exact Or.inl (List.mem_append_right _ h1)
      rcases hsplit with hb' | hb'
      · exact ih.canonical b hb'
      · subst hb'
        rw [← ih.req]
        exact hreq
    · intro t' ht'
      rw [hs'] at ht'
      simp only at ht'
      rcases List.mem_or_eq_of_mem_set ht' with hold | hnew
      · exact ih.drop_pick t' hold
      · subst hnew
        rw [htake]
        show DropPreceded (t.taken_actions ++ [a])
        intro j hj p st hget
        by_cases hjlt : j < t.taken_actions.length
        · have hget' : t.taken_actions.get ⟨j, hjlt⟩ = Action.Drop p st := by
            rw [← hget]
            simp only [List.get_eq_getElem]
            exact (List.getElem_append_left hjlt).symm
          obtain ⟨i₀, hi₀, st', hpick⟩ :=
            ih.drop_pick t (mem_of_getElem?_some hit) j hjlt p st hget'
          refine ⟨i₀, hi₀, st', ?_⟩
          simp only [List.get_eq_getElem]
          rw [List.getElem_append_left (Nat.lt_trans hi₀ hjlt)]
          simp only [List.get_eq_getElem] at hpick
          exact hpick
        · have hjlen : j = t.taken_actions.length := by
            have : j < (t.taken_actions ++ [a]).length := hj
            simp only [List.length_append, List.length_singleton] at this
            omega
          have hgeta : (t.taken_actions ++ [a]).get ⟨j, hj⟩ = a := by
            simp only [List.get_eq_getElem]
            exact List.getElem_concat_length _ _ _ hjlen _
          rw [hgeta] at hget
          subst hget
          unfold TrainState.can_take TrainState.can_drop at hcan
          rw [List.any_eq_true] at hcan
          obtain ⟨x, hx, hxp⟩ := hcan
          cases x with
          | Pick p' st' =>
            simp only [Action.package] at hxp
            have hpp : p' = p := by simpa using hxp
            subst hpp
            obtain ⟨i₀, hi₀len, hi₀get⟩ := List.mem_iff_getElem.mp hx
            refine ⟨i₀, by omega, st', ?_⟩
            simp only [List.get_eq_getElem]
            rw [List.getElem_append_left hi₀len]
            exact hi₀get
          | Drop p' st' => simp at hxp

/-- The train currently carries `p` (§4.E): some `Pick` of `p` occurs in
its history and no `Drop` of `p` occurs later. -/
def Carrying (t : TrainState) (p : Package) : Prop :=
  ∃ i, ∃ hi : i < t.taken_actions.length, ∃ st,
    t.taken_actions.get ⟨i, hi⟩ = Action.Pick p st ∧
    ∀ j, ∀ hj : j < t.taken_actions.length, i < j →
      ∀ st', t.taken_actions.get ⟨j, hj⟩ ≠ Action.Drop p st'

/-- **C1.** In every reachable planner state, a `Drop` of package `p` is
available to a train iff that train's history contains an earlier `Pick`
of `p` with no intervening `Drop` of `p` — i.e. iff the train currently
carries `p`.  In particular no train that never picked `p`, or that
already dropped it, is offered `Drop(p, _)`. -/
theorem drop_available_iff_carrying (net : Network) (s : StateNetwork)
    (h : Reach (StateNetwork.new net) s) (t : TrainState) (ht : t ∈ s.train_states)
    (p : Package) :
    (∃ st, Action.Drop p st ∈ t.available_actions s.untaken_actions) ↔ Carrying t p := by
  have inv := reach_inv h
  constructor
  · rintro ⟨st, hmem⟩
    have hcd : t.can_take (Action.Drop p st) = true := List.of_mem_filter hmem
    have hunt : Action.Drop p st ∈ s.untaken_actions := List.mem_of_mem_filter hmem
    have hnot : Action.Drop p st ∉ s.taken_actions := by
      intro hmem'
      have hc2 := List.of_mem_filter hunt
      rw [Bool.not_eq_true'] at hc2
      have hc3 : s.taken_actions.contains (Action.Drop p st) = true := by simpa using hmem'
      rw [hc2] at hc3
      exact Bool.noConfusion hc3
    have hreqm : Action.Drop p st ∈ net.actions := by
      rw [← inv.req]
      exact List.mem_of_mem_filter hunt
    have hst : st = p.toStation := by
      obtain ⟨q, _, hq | hq⟩ := mem_network_actions.mp hreqm
      · exact absurd hq (by simp)
      · injection hq with hq1 hq2
        rw [hq2, hq1]
    unfold TrainState.can_take TrainState.can_drop at hcd
    rw [List.any_eq_true] at hcd
    obtain ⟨x, hx, hxp⟩ := hcd
    cases x with
    | Drop p' st₁ => simp at hxp
    | Pick p' st₁ =>
      have hpp : p' = p := by simpa [Action.package] using hxp
      obtain ⟨i, hi, hig⟩ := List.mem_iff_getElem.mp hx
      rw [hpp] at hig
      refine ⟨i, hi, st₁, by simp only [List.get_eq_getElem]; exact hig, ?_⟩
      intro j hj _hij st' hdrop
      have hdmem : Action.Drop p st' ∈ t.taken_actions := by
        rw [← hdrop]
        exact get_mem_of_lt _ _ _
      have hdtaken : Action.Drop p st' ∈ s.taken_actions :=
        List.mem_flatMap.mpr ⟨t, ht, hdmem⟩
      have hst' : st' = p.toStation := by
        obtain ⟨q, _, hq | hq⟩ := mem_network_actions.mp (inv.canonical _ hdtaken)
        · exact absurd hq (by simp)
        · injection hq with hq1 hq2
          rw [hq2, hq1]
      rw [hst'] at hdtaken
      rw [hst] at hnot
      exact hnot hdtaken
  · rintro ⟨i, hi, st₁, hpick, hnodrop⟩
    have hpmem : Action.Pick p st₁ ∈ t.taken_actions := by
      rw [← hpick]
      exact get_mem_of_lt _ _ _
    have hptaken : Action.Pick p st₁ ∈ s.taken_actions :=
      List.mem_flatMap.mpr ⟨t, ht, hpmem⟩
    obtain ⟨q, hqmem, hq | hq⟩ := mem_network_actions.mp (inv.canonical _ hptaken)
    case inr => exact absurd hq (by simp)
    injection hq with hq1 hq2
    subst hq1
    subst hq2
    -- now `p`'s pick station is canonical and `p` is a network package
    have hdreq : Action.Drop p p.toStation ∈ s.required_actions := by
      rw [inv.req]
      exact mem_network_actions.mpr ⟨p, hqmem, Or.inr rfl⟩
    have hdnot : Action.Drop p p.toStation ∉ s.taken_actions := by
      intro hdt
      obtain ⟨t', ht', hdmem'⟩ := List.mem_flatMap.mp hdt
      obtain ⟨j', hj', hget'⟩ := List.mem_iff_getElem.mp hdmem'
      obtain ⟨i', hi'lt, st₂, hpick'⟩ := inv.drop_pick t' ht' j' hj' p p.toStation
        (by simp only [List.get_eq_getElem]; exact hget')
      -- the pick in t' is also canonical
      have hp'mem : Action.Pick p st₂ ∈ t'.taken_actions := by
        rw [← hpick']
        exact get_mem_of_lt _ _ _
      have hp'taken : Action.Pick p st₂ ∈ s.taken_actions :=
        List.mem_flatMap.mpr ⟨t', ht', hp'mem⟩
      have hst₂ : st₂ = p.fromStation := by
        obtain ⟨q', _, hq' | hq'⟩ := mem_network_actions.mp (inv.canonical _ hp'taken)
        · injection hq' with hq'1 hq'2
          rw [hq'2, hq'1]
        · exact absurd hq' (by simp)
      rw [hst₂] at hpick'
      -- identify the two trains by the duplicate-freedom of the global history
      obtain ⟨k, hk, hkt⟩ := List.mem_iff_getElem.mp ht
      obtain ⟨k', hk', hkt'⟩ := List.mem_iff_getElem.mp ht'
      have hcount : List.count (Action.Pick p p.fromStation) s.taken_actions ≤ 1 :=
        List.nodup_iff_count_le_one.mp inv.nodup _
      unfold StateNetwork.taken_actions at hcount
      rw [count_flatMap] at hcount
      by_cases hkk : k = k'
      · -- same train
        have htt : t = t' := by
          subst hkk
          rw [← hkt, ← hkt']
        subst htt
        have hnacts : t.taken_actions.Nodup := by
          have hdec := flatMap_decomp TrainState.taken_actions s.train_states k hk
          have hn := inv.nodup
          unfold StateNetwork.taken_actions at hn
          rw [hdec] at hn
          rw [show s.train_states.get ⟨k, hk⟩ = t from by
            simp only [List.get_eq_getElem]; exact hkt] at hn
          exact (hn.of_append_left).of_append_right
        by_cases hii : i = i'
        · subst hii
          exact hnodrop j' hj' hi'lt p.toStation
            (by simp only [List.get_eq_getElem]; exact hget')
        · have h2 := two_getElem_le_count t.taken_actions (Action.Pick p p.fromStation)
            i i' hi (Nat.lt_trans hi'lt hj') hii hpick hpick'
          have h1 := List.nodup_iff_count_le_one.mp hnacts (Action.Pick p p.fromStation)
          omega
      · -- different trains: the unique pick would occur twice in the union
        have hklen : k < (s.train_states.map
            (fun x => List.count (Action.Pick p p.fromStation) x.taken_actions)).length := by
          simpa using hk
        have hk'len : k' < (s.train_states.map
            (fun x => List.count (Action.Pick p p.fromStation) x.taken_actions)).length := by
          simpa using hk'
        have hgk : (s.train_states.map
            (fun x => List.count (Action.Pick p p.fromStation) x.taken_actions)).get
              ⟨k, hklen⟩ = List.count (Action.Pick p p.fromStation) t.taken_actions := by
          simp only [List.get_eq_getElem, List.getElem_map, hkt]
        have hgk' : (s.train_states.map
            (fun x => List.count (Action.Pick p p.fromStation) x.taken_actions)).get
              ⟨k', hk'len⟩ = List.count (Action.Pick p p.fromStation) t'.taken_actions := by
          simp only [List.get_eq_getElem, List.getElem_map, hkt']
        have hsum := sum_two_indices _ k k' hklen hk'len hkk
        rw [hgk, hgk'] at hsum
        have hc1 : 0 < List.count (Action.Pick p p.fromStation) t.taken_actions :=
          List.count_pos_iff.mpr (hpick ▸ get_mem_of_lt _ _ _)
        have hc2 : 0 < List.count (Action.Pick p p.fromStation) t'.taken_actions :=
          List.count_pos_iff.mpr (hpick' ▸ get_mem_of_lt _ _ _)
        omega
    have huntaken : Action.Drop p p.toStation ∈ s.untaken_actions := by
      unfold StateNetwork.untaken_actions
      rw [List.mem_filter]
      refine ⟨hdreq, ?_⟩
      rw [Bool.not_eq_true']
      cases hcontains : s.taken_actions.contains (Action.Drop p p.toStation) with
      | false => rfl
      | true => exact absurd (by simpa using hcontains) hdnot
    refine ⟨p.toStation, List.mem_filter.mpr ⟨huntaken, ?_⟩⟩
    show t.can_drop p = true
    unfold TrainState.can_drop
    rw [List.any_eq_true]
    exact ⟨Action.Pick p p.fromStation, hpmem, by simp [Action.package]⟩

/-- The train state of `sPickAB`: the concrete train after committing
`Pick(P, A)`. -/
def tsPickAB : TrainState := ⟨trnT, [Action.Pick pkgP stA], netAB.route_map⟩

/-- Closed instance of `drop_available_iff_carrying` at the reachable state
in which the concrete train has picked the package. -/
theorem drop_available_iff_carrying_w :
    (∃ st, Action.Drop pkgP st ∈ tsPickAB.available_actions sPickAB.untaken_actions) ↔
      Carrying tsPickAB pkgP :=
  drop_available_iff_carrying netAB sPickAB
    (@Reach.step (StateNetwork.new netAB) (StateNetwork.new netAB) [(sPickAB, 0)] sPickAB 0
      Reach.refl (by decide) (List.mem_singleton.mpr rfl))
    tsPickAB (by decide) pkgP

/-! ## C8: instruction timelines -/

/-- Total travel time of an instruction list (sum of the traversed routes'
times). -/
def sumDur (l : List Instruction) : Nat :=
  (l.map (fun i => i.route.travel_time)).sum

/-- The begin times of the list form a running clock starting at `b`. -/
def ClockFrom : Nat → List Instruction → Prop
  | _, [] => True
  | b, i :: rest => i.begin_at = b ∧ ClockFrom (b + i.route.travel_time) rest

theorem sumDur_append (l₁ l₂ : List Instruction) :
    sumDur (l₁ ++ l₂) = sumDur l₁ + sumDur l₂ := by
  unfold sumDur
  rw [List.map_append, List.sum_append]

theorem clockFrom_append {l₁ l₂ : List Instruction} :
    ∀ {b : Nat}, ClockFrom b l₁ → ClockFrom (b + sumDur l₁) l₂ → ClockFrom b (l₁ ++ l₂) := by
  induction l₁ with
  | nil =>
    intro b _ h2
    simpa [sumDur] using h2
  | cons x xs ih =>
    intro b h1 h2
    obtain ⟨hx, hxs⟩ := h1
    refine ⟨hx, ih hxs ?_⟩
    have : b + x.route.travel_time + sumDur xs = b + sumDur (x :: xs) := by
      simp [sumDur]
      omega
    rw [this]
    exact h2

theorem clockFrom_append_iff (l₁ l₂ : List Instruction) :
    ∀ b : Nat, ClockFrom b (l₁ ++ l₂) ↔
      ClockFrom b l₁ ∧ ClockFrom (b + sumDur l₁) l₂ := by
  induction l₁ with
  | nil =>
    intro b
    simp [ClockFrom, sumDur]
  | cons x xs ih =>
    intro b
    constructor
    · rintro ⟨hx, hrest⟩
      have hrest' : ClockFrom (b + x.route.travel_time) (xs ++ l₂) := hrest
      rw [ih] at hrest'
      replace hrest := hrest'
      refine ⟨⟨hx, hrest.1⟩, ?_⟩
      have he : b + x.route.travel_time + sumDur xs = b + sumDur (x :: xs) := by
        simp [sumDur]; omega
      rw [← he]
      exact hrest.2
    · rintro ⟨⟨hx, h1⟩, h2⟩
      refine ⟨hx, ?_⟩
      show ClockFrom (b + x.route.travel_time) (xs ++ l₂)
      rw [ih]
      refine ⟨h1, ?_⟩
      have he : b + x.route.travel_time + sumDur xs = b + sumDur (x :: xs) := by
        simp [sumDur]; omega
      rw [he]
      exact h2

theorem subInstrCore_sum (tr : Train) (a : Action) :
    ∀ (rs : List Route) (b : Nat), sumDur (subInstrCore tr a rs b) = chainWeight rs := by
  intro rs
  induction rs with
  | nil => intro b; rfl
  | cons r rest ih =>
    intro b
    cases rest with
    | nil =>
      cases a <;> simp [subInstrCore, sumDur, chainWeight]
    | cons r' rest' =>
      simp only [subInstrCore, sumDur, List.map_cons, List.sum_cons, chainWeight]
      have := ih (b + r.travel_time)
      simp only [sumDur, chainWeight] at this
      rw [this]
      simp

theorem subInstrCore_clock (tr : Train) (a : Action) :
    ∀ (rs : List Route) (b : Nat), ClockFrom b (subInstrCore tr a rs b) := by
  intro rs
  induction rs with
  | nil => intro b; trivial
  | cons r rest ih =>
    intro b
    cases rest with
    | nil => exact ⟨rfl, trivial⟩
    | cons r' rest' => exact ⟨rfl, ih (b + r.travel_time)⟩

theorem sub_instructions_sum (t : TrainState) (rp : RoutePath) (a : Action) (b : Nat) :
    sumDur (t.sub_instructions rp a b) = rp.travel_time := by
  unfold TrainState.sub_instructions
  cases a with
  | Pick p st =>
    rw [sumDur_append, subInstrCore_sum]
    simp [sumDur, RoutePath.travel_time, chainWeight, Route.identity]
  | Drop p st =>
    rw [sumDur_append, subInstrCore_sum]
    simp [sumDur, RoutePath.travel_time, chainWeight]

theorem sub_instructions_clock (t : TrainState) (rp : RoutePath) (a : Action) (b : Nat) :
    ClockFrom b (t.sub_instructions rp a b) := by
  unfold TrainState.sub_instructions
  cases a with
  | Pick p st =>
    apply clockFrom_append (subInstrCore_clock t.train _ rp.routes b)
    rw [subInstrCore_sum]
    refine ⟨?_, trivial⟩
    simp [RoutePath.travel_time, chainWeight]
  | Drop p st =>
    apply clockFrom_append (subInstrCore_clock t.train _ rp.routes b)
    exact trivial

/-- Total path time of a segment list. -/
def pairsTime (pairs : List (RoutePath × Action)) : Nat :=
  (pairs.map (fun x => x.1.travel_time)).sum

theorem rawSegments_sum (t : TrainState) :
    ∀ (pairs : List (RoutePath × Action)) (b : Nat),
      sumDur (rawSegments t pairs b) = pairsTime pairs := by
  intro pairs
  induction pairs with
  | nil => intro b; rfl
  | cons pr rest ih =>
    intro b
    obtain ⟨rp, a⟩ := pr
    simp only [rawSegments, sumDur_append, sub_instructions_sum, ih, pairsTime,
      List.map_cons, List.sum_cons]

theorem rawSegments_clock (t : TrainState) :
    ∀ (pairs : List (RoutePath × Action)) (b : Nat), ClockFrom b (rawSegments t pairs b) := by
  intro pairs
  induction pairs with
  | nil => intro b; trivial
  | cons pr rest ih =>
    intro b
    obtain ⟨rp, a⟩ := pr
    apply clockFrom_append (sub_instructions_clock t rp a b)
    rw [sub_instructions_sum]
    exact ih (b + rp.travel_time)

theorem rawSegments_append (t : TrainState) :
    ∀ (p₁ p₂ : List (RoutePath × Action)) (b : Nat),
      rawSegments t (p₁ ++ p₂) b = rawSegments t p₁ b ++ rawSegments t p₂ (b + pairsTime p₁) := by
  intro p₁
  induction p₁ with
  | nil => intro p₂ b; simp [rawSegments, pairsTime]
  | cons pr rest ih =>
    intro p₂ b
    obtain ⟨rp, a⟩ := pr
    have harg : b + rp.travel_time + pairsTime rest = b + pairsTime ((rp, a) :: rest) := by
      unfold pairsTime
      simp only [List.map_cons, List.sum_cons]
      omega
    show t.sub_instructions rp a b ++ rawSegments t (rest ++ p₂) (b + rp.travel_time) =
      (t.sub_instructions rp a b ++ rawSegments t rest (b + rp.travel_time)) ++
        rawSegments t p₂ (b + pairsTime ((rp, a) :: rest))
    rw [ih, ← harg, List.append_assoc]

theorem sumDur_singleton (i : Instruction) : sumDur [i] = i.route.travel_time := by
  simp [sumDur]

theorem combine_eq_merge {i j : Instruction}
    (h : (i.route.is_identity && (i.route.toStation == j.route.fromStation)) = true) :
    i.combine j = [⟨i.begin_at, i.train, j.route,
      i.picked_package ++ j.picked_package,
      i.dropped_package ++ j.dropped_package⟩] := by
  unfold Instruction.combine
  rw [if_pos h]

theorem combine_eq_keep {i j : Instruction}
    (h : ¬ (i.route.is_identity && (i.route.toStation == j.route.fromStation)) = true) :
    i.combine j = [i, j] := by
  unfold Instruction.combine
  rw [if_neg h]

/-- The invariant of the coalescing fold: it preserves the running clock
and the total duration; merging only ever removes a zero-time identity
instruction whose begin time coincides with its successor's. -/
theorem combineFold_go :
    ∀ (raw acc : List Instruction) (b : Nat), ClockFrom 0 acc → sumDur acc = b →
      ClockFrom b raw →
      ClockFrom 0 (raw.foldl combineStep acc) ∧
        sumDur (raw.foldl combineStep acc) = b + sumDur raw := by
  intro raw
  induction raw with
  | nil =>
    intro acc b h1 h2 _
    simp only [List.foldl_nil]
    refine ⟨h1, ?_⟩
    rw [show sumDur ([] : List Instruction) = 0 from rfl, Nat.add_zero]
    exact h2
  | cons next rest ih =>
    intro acc b h1 h2 h3
    obtain ⟨hnb, hrest⟩ := h3
    rw [List.foldl_cons]
    have hstep : ClockFrom 0 (combineStep acc next) ∧
        sumDur (combineStep acc next) = b + next.route.travel_time := by
      unfold combineStep
      cases hlast : acc.getLast? with
      | none =>
        have hacc : acc = [] := List.getLast?_eq_none_iff.mp hlast
        subst hacc
        simp only [sumDur, List.map_nil, List.sum_nil] at h2
        refine ⟨⟨by rw [hnb, ← h2], trivial⟩, ?_⟩
        simp [sumDur, ← h2]
      | some last =>
        have hne : acc ≠ [] := by
          intro he
          rw [he] at hlast
          exact Option.noConfusion hlast
        have hglast : acc.getLast hne = last := by
          rw [← Option.some.injEq, ← List.getLast?_eq_getLast acc hne, hlast]
        have hacc : acc.dropLast ++ [last] = acc := by
          rw [← hglast]
          exact List.dropLast_append_getLast hne
        have hcp : ClockFrom 0 (acc.dropLast ++ [last]) := by rw [hacc]; exact h1
        rw [clockFrom_append_iff] at hcp
        have hpre := hcp.1
        have hlb : last.begin_at = sumDur acc.dropLast := by
          simpa using hcp.2.1
        have hsum : sumDur acc.dropLast + last.route.travel_time = b := by
          have h4 := congrArg sumDur hacc
          rw [sumDur_append, sumDur_singleton] at h4
          omega
        show ClockFrom 0 (acc.dropLast ++ last.combine next) ∧
          sumDur (acc.dropLast ++ last.combine next) = b + next.route.travel_time
        by_cases hguard : (last.route.is_identity &&
            (last.route.toStation == next.route.fromStation)) = true
        · rw [combine_eq_merge hguard]
          have hid : last.route.travel_time = 0 := by
            have hg1 := (Bool.and_eq_true _ _).mp hguard
            unfold Route.is_identity at hg1
            have hg2 := (Bool.and_eq_true _ _).mp hg1.1
            simpa using hg2.2
          constructor
          · apply clockFrom_append hpre
            refine ⟨by simpa using hlb, trivial⟩
          · rw [sumDur_append, sumDur_singleton]
            dsimp only
            omega
        · rw [combine_eq_keep hguard]
          have hjoin : acc.dropLast ++ [last, next] = acc ++ [next] := by
            rw [← hacc]
            simp
          rw [hjoin]
          constructor
          · apply clockFrom_append h1
            refine ⟨by rw [hnb, ← h2, Nat.zero_add], trivial⟩
          · rw [sumDur_append, sumDur_singleton]
            omega
    have := ih (combineStep acc next) (b + next.route.travel_time) hstep.1 hstep.2 hrest
    rw [this.2]
    refine ⟨this.1, ?_⟩
    simp only [sumDur, List.map_cons, List.sum_cons]
    omega

theorem combineFold_spec {raw : List Instruction} (h : ClockFrom 0 raw) :
    ClockFrom 0 (combineFold raw) ∧ sumDur (combineFold raw) = sumDur raw := by
  have := combineFold_go raw [] 0 trivial rfl h
  unfold combineFold
  exact ⟨this.1, by rw [this.2, Nat.zero_add]⟩

theorem clockFrom_get {l : List Instruction} :
    ∀ {b : Nat}, ClockFrom b l → ∀ j, ∀ hj : j < l.length,
      (l.get ⟨j, hj⟩).begin_at = b + sumDur (l.take j) := by
  induction l with
  | nil => intro b _ j hj; simp at hj
  | cons x xs ih =>
    intro b h j hj
    obtain ⟨hx, hxs⟩ := h
    cases j with
    | zero =>
      simpa [sumDur] using hx
    | succ j' =>
      have hj' : j' < xs.length := by simpa using hj
      have e : (x :: xs).get ⟨j' + 1, hj⟩ = xs.get ⟨j', hj'⟩ := rfl
      rw [e, ih hxs j' hj']
      simp only [List.take_succ_cons, sumDur, List.map_cons, List.sum_cons]
      omega

theorem routePairs_length (init : Station) (l : List Action) :
    (routePairs init l).length = l.length := by
  unfold routePairs
  rw [List.length_zip]
  simp only [List.length_cons, List.length_map]
  omega

theorem route_paths_length {t : TrainState} {rps : List RoutePath}
    (h : t.route_paths = some rps) : rps.length = t.taken_actions.length := by
  rw [route_paths_eq] at h
  have hchar := optList_eq_some_iff.mp h
  have hlen := congrArg List.length hchar
  simp only [List.length_map] at hlen
  rw [routePairs_length] at hlen
  omega

theorem map_some_pointwise {α β γ : Type} {f : α → Option β} {g : α → Option γ} {h : β → γ}
    (hfg : ∀ x y, f x = some y → g x = some (h y)) :
    ∀ {l : List α} {ys : List β}, l.map f = ys.map some → l.map g = ((ys.map h).map some) := by
  intro l
  induction l with
  | nil =>
    intro ys hl
    cases ys with
    | nil => rfl
    | cons y ys' => simp at hl
  | cons x xs ih =>
    intro ys hl
    cases ys with
    | nil => simp at hl
    | cons y ys' =>
      simp only [List.map_cons, List.cons.injEq] at hl ⊢
      exact ⟨hfg x y hl.1, ih hl.2⟩

/-- The per-train half of C8: a synthesized instruction list's route times
sum to the train's accumulated travel time, and the begin times form a
running clock from `0`. -/
theorem train_instructions_spec (t : TrainState) (li : List Instruction)
    (h : t.instructions = some li) :
    t.travel_time_used = some (sumDur li) ∧
      ∀ j, ∀ hj : j < li.length, (li.get ⟨j, hj⟩).begin_at = sumDur (li.take j) := by
  unfold TrainState.instructions at h
  cases hrp : t.route_paths with
  | none => rw [hrp] at h; exact Option.noConfusion h
  | some rps =>
    rw [hrp] at h
    simp only [Option.map_some', Option.some.injEq] at h
    subst h
    have hraw := rawSegments_clock t (rps.zip t.taken_actions) 0
    have hspec := combineFold_spec hraw
    have hsum := rawSegments_sum t (rps.zip t.taken_actions) 0
    have hfst : (rps.zip t.taken_actions).map Prod.fst = rps :=
      List.map_fst_zip rps t.taken_actions (le_of_eq (route_paths_length hrp))
    have hpairs : pairsTime (rps.zip t.taken_actions) =
        (rps.map RoutePath.travel_time).sum := by
      unfold pairsTime
      rw [show ((rps.zip t.taken_actions).map (fun x => x.1.travel_time)) =
        (((rps.zip t.taken_actions).map Prod.fst).map RoutePath.travel_time) from by
          rw [List.map_map]; rfl]
      rw [hfst]
    constructor
    · unfold TrainState.travel_time_used
      rw [hrp]
      simp only [Option.map_some', Option.some.injEq]
      rw [hspec.2, hsum, hpairs]
    · intro j hj
      have := clockFrom_get hspec.1 j hj
      simpa using this

/-- **C8.** For every planner state: per train, the sum of the travel
times of the routes in its synthesized instructions equals that train's
accumulated travel time; each instruction's begin time equals the sum of
the durations of that train's earlier instructions (a running clock from
`0`); and the maximum of the per-train sums over the fleet equals the
state's reported makespan. -/
theorem instructions_times_and_makespan (s : StateNetwork) :
    (∀ t : TrainState, ∀ li, t.instructions = some li →
      t.travel_time_used = some (sumDur li) ∧
      ∀ j, ∀ hj : j < li.length, (li.get ⟨j, hj⟩).begin_at = sumDur (li.take j)) ∧
    (∀ ls c, optList (s.train_states.map TrainState.instructions) = some ls →
      s.travel_time_used = some c → listMax? (ls.map sumDur) = some c) := by
  refine ⟨fun t li h => train_instructions_spec t li h, ?_⟩
  intro ls c hls hc
  have hchar := optList_eq_some_iff.mp hls
  have hmap : s.train_states.map TrainState.travel_time_used = ((ls.map sumDur).map some) :=
    map_some_pointwise (fun t li h => (train_instructions_spec t li h).1) hchar
  unfold StateNetwork.travel_time_used at hc
  have hopt : optList (s.train_states.map TrainState.travel_time_used) =
      some (ls.map sumDur) := by
    rw [hmap]
    exact optList_eq_some_iff.mpr rfl
  rw [hopt, Option.some_bind] at hc
  exact hc

/-- Closed instance of `instructions_times_and_makespan` on the concrete
one-train state: the single per-train sum, maxed, is the makespan `0`. -/
theorem instructions_times_and_makespan_w :
    listMax? (([[⟨0, trnT, Route.identity stA, [pkgP], []⟩]] :
      List (List Instruction)).map sumDur) = some 0 :=
  (instructions_times_and_makespan sPickAB).2
    [[⟨0, trnT, Route.identity stA, [pkgP], []⟩]] 0 (by decide) (by decide)

/-! ## C9: a Pick on an identity path -/

theorem sub_instructions_train (t₁ t₂ : TrainState) (h : t₁.train = t₂.train)
    (rp : RoutePath) (a : Action) (b : Nat) :
    t₁.sub_instructions rp a b = t₂.sub_instructions rp a b := by
  unfold TrainState.sub_instructions
  rw [h]

theorem rawSegments_train (t₁ t₂ : TrainState) (h : t₁.train = t₂.train) :
    ∀ (pairs : List (RoutePath × Action)) (b : Nat),
      rawSegments t₁ pairs b = rawSegments t₂ pairs b := by
  intro pairs
  induction pairs with
  | nil => intro b; rfl
  | cons pr rest ih =>
    intro b
    obtain ⟨rp, a⟩ := pr
    simp only [rawSegments, sub_instructions_train t₁ t₂ h, ih]

/-- The two raw instructions of a `Pick` whose path is the identity: the
untagged traversal of the identity edge and the pick-tagged zero-time
identity instruction, both at the same clock value. -/
theorem sub_instructions_identity_pick (t : TrainState) (p : Package) (st : Station)
    (b : Nat) :
    t.sub_instructions (RoutePath.identityPath st) (Action.Pick p st) b =
      [⟨b, t.train, Route.identity st, [], []⟩,
       ⟨b, t.train, Route.identity st, [p], []⟩] := by
  unfold TrainState.sub_instructions RoutePath.identityPath subInstrCore
  simp [RoutePath.travel_time, Route.identity]

theorem identity_guard (st : Station) (j : Instruction)
    (hj : j.route.fromStation = st) :
    ((Route.identity st).is_identity && ((Route.identity st).toStation == j.route.fromStation))
      = true := by
  rw [hj]
  simp [Route.is_identity, Route.identity, Route.fromStation, Route.toStation]

theorem combineStep_nil (next : Instruction) : combineStep [] next = [next] := rfl

theorem combineStep_concat (A : List Instruction) (m next : Instruction) :
    combineStep (A ++ [m]) next = A ++ m.combine next := by
  unfold combineStep
  rw [List.getLast?_concat, List.dropLast_concat]

/-- **C9.** When a train commits a `Pick` whose route path is the identity
(the train is already at the pickup station), the synthesizer emits
exactly one instruction for that segment: a zero-duration instruction on
the identity edge annotated with the picked package, at the running clock.
It is either appended to the previous instructions or coalesced into the
last of them (absorbing its annotations), and no other instruction is
produced for the segment. -/
theorem identity_pick_single_instruction (t : TrainState) (p : Package) (st : Station)
    (li : List Instruction)
    (hpos : rmLookup t.route_map
        (lastStation t.train.initial_station t.taken_actions, st) =
      some (RoutePath.identityPath st))
    (hinst : TrainState.instructions
        { t with taken_actions := t.taken_actions ++ [Action.Pick p st] } = some li) :
    ∃ li₀ inst, t.instructions = some li₀ ∧
      inst.route = Route.identity st ∧ inst.route.travel_time = 0 ∧
      inst.picked_package.getLast? = some p ∧ inst.begin_at = sumDur li₀ ∧
      ((li = li₀ ++ [inst] ∧ inst.picked_package = [p] ∧ inst.dropped_package = []) ∨
        (∃ pre lst, li₀ = pre ++ [lst] ∧ li = pre ++ [inst] ∧
          inst.picked_package = lst.picked_package ++ [p] ∧
          inst.dropped_package = lst.dropped_package)) := by
  unfold TrainState.instructions at hinst
  cases hrp' : TrainState.route_paths
      { t with taken_actions := t.taken_actions ++ [Action.Pick p st] } with
  | none => rw [hrp'] at hinst; exact Option.noConfusion hinst
  | some rps' =>
    rw [hrp'] at hinst
    simp only [Option.map_some', Option.some.injEq] at hinst
    -- decompose the appended route-path chain
    rw [route_paths_append] at hrp'
    cases hrp : t.route_paths with
    | none => rw [hrp] at hrp'; exact Option.noConfusion hrp'
    | some rps =>
      rw [hrp] at hrp'
      rw [show (Action.Pick p st).station = st from rfl] at hrp'
      rw [hpos] at hrp'
      simp only [Option.map_some', Option.some_bind, Option.some.injEq] at hrp'
      subst hrp'
      -- the raw instruction list of the extended train
      have hlen : rps.length = t.taken_actions.length := route_paths_length hrp
      have hzip : (rps ++ [RoutePath.identityPath st]).zip
          (t.taken_actions ++ [Action.Pick p st]) =
          rps.zip t.taken_actions ++ [(RoutePath.identityPath st, Action.Pick p st)] := by
        rw [List.zip_append hlen]
        rfl
      set li₀ : List Instruction := combineFold (rawSegments t (rps.zip t.taken_actions) 0)
        with hli₀
      have hinst₀ : t.instructions = some li₀ := by
        unfold TrainState.instructions
        rw [hrp]
        rfl
      have hclock := combineFold_spec (rawSegments_clock t (rps.zip t.taken_actions) 0)
      have hb₀ : sumDur li₀ = pairsTime (rps.zip t.taken_actions) := by
        rw [hli₀, hclock.2, rawSegments_sum]
      -- rewrite the folded list of the extended train
      have hli : li = (rawSegments t (rps.zip t.taken_actions ++
          [(RoutePath.identityPath st, Action.Pick p st)]) 0).foldl combineStep [] := by
        rw [← hinst]
        unfold combineFold
        congr 1
        rw [← hzip]
        exact rawSegments_train
          { train := t.train, taken_actions := t.taken_actions ++ [Action.Pick p st],
            route_map := t.route_map } t rfl _ _
      rw [rawSegments_append] at hli
      rw [List.foldl_append] at hli
      rw [show rawSegments t [(RoutePath.identityPath st, Action.Pick p st)]
          (0 + pairsTime (rps.zip t.taken_actions)) =
        t.sub_instructions (RoutePath.identityPath st) (Action.Pick p st)
          (0 + pairsTime (rps.zip t.taken_actions)) ++ [] from rfl] at hli
      rw [List.append_nil, sub_instructions_identity_pick] at hli
      set b₀ : Nat := 0 + pairsTime (rps.zip t.taken_actions) with hb₀def
      have hb₀' : sumDur li₀ = b₀ := by
        rw [hb₀, hb₀def, Nat.zero_add]
      set u : Instruction := ⟨b₀, t.train, Route.identity st, [], []⟩ with hu
      set pk : Instruction := ⟨b₀, t.train, Route.identity st, [p], []⟩ with hpk
      have hli2 : li = combineStep (combineStep li₀ u) pk := by
        rw [hli]
        rfl
      -- case analysis on the tail of the previous instruction list
      cases hlast : li₀.getLast? with
      | none =>
        have hnil : li₀ = [] := List.getLast?_eq_none_iff.mp hlast
        have hstep1 : combineStep li₀ u = [u] := by
          rw [hnil, combineStep_nil]
        have hgu : (u.route.is_identity && (u.route.toStation == pk.route.fromStation))
            = true := identity_guard st pk rfl
        have hstep2 : combineStep [u] pk = [⟨b₀, t.train, Route.identity st, [p], []⟩] := by
          have h0 := combineStep_concat [] u pk
          rw [List.nil_append] at h0
          rw [h0, combine_eq_merge hgu]
          simp [hu, hpk]
        refine ⟨li₀, ⟨b₀, t.train, Route.identity st, [p], []⟩, hinst₀, rfl, rfl, rfl,
          hb₀'.symm, Or.inl ?_⟩
        rw [hli2, hstep1, hstep2, hnil]
        exact ⟨rfl, rfl, rfl⟩
      | some lst =>
        have hne : li₀ ≠ [] := by
          intro he
          rw [he] at hlast
          exact Option.noConfusion hlast
        have hglast : li₀.getLast hne = lst := by
          rw [← Option.some.injEq, ← List.getLast?_eq_getLast li₀ hne, hlast]
        have hsplit : li₀.dropLast ++ [lst] = li₀ := by
          rw [← hglast]
          exact List.dropLast_append_getLast hne
        have hstep1 : combineStep li₀ u = li₀.dropLast ++ lst.combine u := by
          rw [← hsplit, combineStep_concat, List.dropLast_concat]
        -- the clock value of the last previous instruction
        have hcp : ClockFrom 0 (li₀.dropLast ++ [lst]) := by
          rw [hsplit]; exact hclock.1
        rw [clockFrom_append_iff] at hcp
        have hlstb : lst.begin_at = sumDur li₀.dropLast := by
          simpa using hcp.2.1
        have hgpk : ∀ m : Instruction, m.route = Route.identity st →
            (m.route.is_identity && (m.route.toStation == pk.route.fromStation)) = true := by
          intro m hm
          rw [hm]
          exact identity_guard st pk rfl
        by_cases hguard : (lst.route.is_identity &&
            (lst.route.toStation == u.route.fromStation)) = true
        · -- the untagged identity instruction merges into the previous one
          have hlstid : lst.route.travel_time = 0 := by
            have hg1 := (Bool.and_eq_true _ _).mp hguard
            unfold Route.is_identity at hg1
            have hg2 := (Bool.and_eq_true _ _).mp hg1.1
            simpa using hg2.2
          have hsum0 : sumDur li₀ = sumDur li₀.dropLast := by
            have h4 := congrArg sumDur hsplit
            rw [sumDur_append, sumDur_singleton] at h4
            omega
          have hstep1' : combineStep li₀ u =
              li₀.dropLast ++ [⟨lst.begin_at, lst.train, Route.identity st,
                lst.picked_package, lst.dropped_package⟩] := by
            rw [hstep1, combine_eq_merge hguard]
            simp [hu]
          have hstep2 : combineStep (li₀.dropLast ++
              [⟨lst.begin_at, lst.train, Route.identity st,
                lst.picked_package, lst.dropped_package⟩]) pk =
              li₀.dropLast ++ [⟨lst.begin_at, lst.train, Route.identity st,
                lst.picked_package ++ [p], lst.dropped_package⟩] := by
            rw [combineStep_concat, combine_eq_merge (hgpk _ rfl)]
            simp [hpk]
          refine ⟨li₀, ⟨lst.begin_at, lst.train, Route.identity st,
            lst.picked_package ++ [p], lst.dropped_package⟩, hinst₀, rfl, rfl,
            List.getLast?_concat _, ?_, Or.inr ⟨li₀.dropLast, lst, hsplit.symm, ?_, rfl, rfl⟩⟩
          · show lst.begin_at = sumDur li₀
            rw [hlstb, hsum0]
          · rw [hli2, hstep1', hstep2]
        · -- the previous instruction is kept; the two identity instructions merge
          have hgu : (u.route.is_identity && (u.route.toStation == pk.route.fromStation))
              = true := identity_guard st pk rfl
          have hstep1' : combineStep li₀ u = li₀ ++ [u] := by
            rw [hstep1, combine_eq_keep hguard, ← hsplit]
            simp
          have hstep2 : combineStep (li₀ ++ [u]) pk =
              li₀ ++ [⟨b₀, t.train, Route.identity st, [p], []⟩] := by
            rw [combineStep_concat, combine_eq_merge hgu]
            simp [hu, hpk]
          refine ⟨li₀, ⟨b₀, t.train, Route.identity st, [p], []⟩, hinst₀, rfl, rfl, rfl,
            hb₀'.symm, Or.inl ?_⟩
          rw [hli2, hstep1', hstep2]
          exact ⟨rfl, rfl, rfl⟩

/-- Closed instance of `identity_pick_single_instruction`: the concrete
train picks the package at its own initial station; the synthesizer emits
the single zero-time tagged identity instruction. -/
theorem identity_pick_single_instruction_w :
    ∃ li₀ inst, tsInitAB.instructions = some li₀ ∧
      inst.route = Route.identity stA ∧ inst.route.travel_time = 0 ∧
      inst.picked_package.getLast? = some pkgP ∧ inst.begin_at = sumDur li₀ ∧
      (([⟨0, trnT, Route.identity stA, [pkgP], []⟩] = li₀ ++ [inst] ∧
          inst.picked_package = [pkgP] ∧ inst.dropped_package = []) ∨
        (∃ pre lst, li₀ = pre ++ [lst] ∧
          [(⟨0, trnT, Route.identity stA, [pkgP], []⟩ : Instruction)] = pre ++ [inst] ∧
          inst.picked_package = lst.picked_package ++ [pkgP] ∧
          inst.dropped_package = lst.dropped_package)) :=
  identity_pick_single_instruction tsInitAB pkgP stA
    [⟨0, trnT, Route.identity stA, [pkgP], []⟩] (by decide) (by decide)

/-! ## C6: the all-pairs route map -/

/-- The routes form a directed chain from `a` to `b`: each route starts at
the current station and moves to its `to` endpoint. -/
def isDirectedChain (a : Station) (rs : List Route) (b : Station) : Bool :=
  match rs with
  | [] => a == b
  | r :: rest => r.is_from a && isDirectedChain r.toStation rest b

/-- No two routes join the same ordered station pair with different travel
times. -/
def UniqueTimes (pool : List Route) : Prop :=
  ∀ r ∈ pool, ∀ r' ∈ pool, r.station_pair = r'.station_pair → r.travel_time = r'.travel_time

/-- Every route's reverse (same time) is present, as the doubling of input
routes guarantees. -/
def RevClosed (pool : List Route) : Prop :=
  ∀ r ∈ pool, ∃ r' ∈ pool,
    r'.station_pair = (r.station_pair.2, r.station_pair.1) ∧ r'.travel_time = r.travel_time

theorem mem_seqsLen {pool : List Route} :
    ∀ {k : Nat} {rs : List Route}, rs ∈ seqsLen pool k ↔
      (rs.length = k ∧ ∀ r ∈ rs, r ∈ pool) := by
  intro k
  induction k with
  | zero =>
    intro rs
    simp only [seqsLen, List.mem_singleton]
    constructor
    · rintro rfl
      simp
    · rintro ⟨h1, _⟩
      exact List.length_eq_zero.mp h1
  | succ k' ih =>
    intro rs
    simp only [seqsLen, List.mem_flatMap, List.mem_map]
    constructor
    · rintro ⟨r, hr, rs', hrs', rfl⟩
      obtain ⟨hl, hm⟩ := ih.mp hrs'
      refine ⟨by simp [hl], ?_⟩
      intro x hx
      rcases List.mem_cons.mp hx with hx | hx
      · exact hx ▸ hr
      · exact hm x hx
    · rintro ⟨hl, hm⟩
      cases rs with
      | nil => simp at hl
      | cons r rs' =>
        refine ⟨r, hm r (List.mem_cons_self r rs'), rs', ?_, rfl⟩
        exact ih.mpr ⟨by simpa using hl, fun x hx => hm x (List.mem_cons_of_mem r hx)⟩

theorem mem_seqsUpTo {pool : List Route} {n : Nat} {rs : List Route} :
    rs ∈ seqsUpTo pool n ↔ (rs.length ≤ n ∧ ∀ r ∈ rs, r ∈ pool) := by
  unfold seqsUpTo
  simp only [List.mem_flatMap, List.mem_range]
  constructor
  · rintro ⟨k, hk, hrs⟩
    obtain ⟨hl, hm⟩ := mem_seqsLen.mp hrs
    exact ⟨by omega, hm⟩
  · rintro ⟨hl, hm⟩
    exact ⟨rs.length, by omega, mem_seqsLen.mpr ⟨rfl, hm⟩⟩

theorem chainStations_length (rs : List Route) :
    ∀ u, (chainStations u rs).length = rs.length + 1 := by
  induction rs with
  | nil => intro u; rfl
  | cons r rest ih =>
    intro u
    simp only [chainStations, List.length_cons, ih]

theorem chainStations_ne_nil (u : Station) (rs : List Route) :
    chainStations u rs ≠ [] := by
  cases rs <;> simp [chainStations]

theorem chainStations_head (rs : List Route) :
    ∀ u, ∃ tail, chainStations u rs = u :: tail := by
  cases rs <;> intro u <;> exact ⟨_, rfl⟩

theorem chainStations_tail_subset {pool : List Route} :
    ∀ (rs : List Route) (u : Station), (∀ r ∈ rs, r ∈ pool) →
      ∀ x ∈ (chainStations u rs).tail, x ∈ endpointStations pool := by
  intro rs
  induction rs with
  | nil =>
    intro u _ x hx
    simp [chainStations] at hx
  | cons r rest ih =>
    intro u hm x hx
    simp only [chainStations, List.tail_cons] at hx
    obtain ⟨tail', htail⟩ := chainStations_head rest (r.corresponding_station u)
    rw [htail] at hx
    rcases List.mem_cons.mp hx with hx | hx
    · subst hx
      unfold endpointStations
      rw [List.mem_dedup, List.mem_flatMap]
      refine ⟨r, hm r (List.mem_cons_self r rest), ?_⟩
      unfold Route.corresponding_station
      by_cases hc : (r.fromStation == u) = true
      · rw [if_pos hc]; simp [Route.fromStation, Route.toStation]
      · rw [if_neg hc]; simp [Route.fromStation, Route.toStation]
    · have := ih (r.corresponding_station u)
        (fun x hx => hm x (List.mem_cons_of_mem r hx)) x
      rw [htail] at this
      exact this (by simpa using hx)

theorem chainEnd_eq_of_isChain :
    ∀ (rs : List Route) (u v : Station), isChain u rs v = true → chainEnd u rs = v := by
  intro rs
  induction rs with
  | nil =>
    intro u v h
    simpa [isChain, chainEnd] using h
  | cons r rest ih =>
    intro u v h
    simp only [isChain, Bool.and_eq_true] at h
    exact ih _ v h.2

theorem chainStations_getLast :
    ∀ (rs : List Route) (u : Station) (h : chainStations u rs ≠ []),
      (chainStations u rs).getLast h = chainEnd u rs := by
  intro rs
  induction rs with
  | nil => intro u h; rfl
  | cons r rest ih =>
    intro u h
    simp only [chainStations, chainEnd]
    rw [List.getLast_cons (chainStations_ne_nil _ _)]
    exact ih _ _

/-- Cutting a walk at an occurrence of `u` among its visited stations
yields a walk from `u` with no greater weight, drawn from the same routes,
whose station trace is a suffix of the original. -/
theorem chain_cut {v u : Station} :
    ∀ (rs : List Route) (w : Station), isChain w rs v = true →
      u ∈ chainStations w rs →
      ∃ rs', isChain u rs' v = true ∧ chainWeight rs' ≤ chainWeight rs ∧
        rs'.length ≤ rs.length ∧ (∀ r ∈ rs', r ∈ rs) ∧
        (chainStations u rs') <:+ (chainStations w rs) := by
  intro rs
  induction rs with
  | nil =>
    intro w hch hu
    simp only [chainStations, List.mem_singleton] at hu
    subst hu
    exact ⟨[], hch, le_refl _, le_refl _, by simp, List.suffix_refl _⟩
  | cons r rest ih =>
    intro w hch hu
    simp only [isChain, Bool.and_eq_true] at hch
    simp only [chainStations, List.mem_cons] at hu
    rcases hu with hu | hu
    · subst hu
      refine ⟨r :: rest, ?_, le_refl _, le_refl _, fun x hx => hx, List.suffix_refl _⟩
      simp only [isChain, Bool.and_eq_true]
      exact hch
    · obtain ⟨rs', h1, h2, h3, h4, h5⟩ := ih (r.corresponding_station w) hch.2 hu
      refine ⟨rs', h1, ?_, by simpa using Nat.le_succ_of_le h3,
        fun x hx => List.mem_cons_of_mem r (h4 x hx), ?_⟩
      · calc chainWeight rs' ≤ chainWeight rest := h2
          _ ≤ chainWeight (r :: rest) := by simp [chainWeight]
      · exact h5.trans (List.suffix_cons _ _)

/-- Every walk can be shortened to a walk with duplicate-free station
trace, the same endpoints, and no greater weight. -/
theorem chain_shorten {pool : List Route} {v : Station} :
    ∀ (rs : List Route) (u : Station), isChain u rs v = true →
      (∀ r ∈ rs, r ∈ pool) →
      ∃ rs', isChain u rs' v = true ∧ chainWeight rs' ≤ chainWeight rs ∧
        (∀ r ∈ rs', r ∈ pool) ∧ (chainStations u rs').Nodup := by
  intro rs
  induction rs with
  | nil =>
    intro u hch _
    exact ⟨[], hch, le_refl _, by simp, by simp [chainStations]⟩
  | cons r rest ih =>
    intro u hch hm
    simp only [isChain, Bool.and_eq_true] at hch
    obtain ⟨rest', h1, h2, h3, h4⟩ := ih (r.corresponding_station u) hch.2
      (fun x hx => hm x (List.mem_cons_of_mem r hx))
    by_cases hu : u ∈ chainStations (r.corresponding_station u) rest'
    · obtain ⟨rs'', g1, g2, g3, g4, g5⟩ := chain_cut rest' _ h1 hu
      refine ⟨rs'', g1, ?_, fun x hx => h3 x (g4 x hx), g5.sublist.nodup h4⟩
      calc chainWeight rs'' ≤ chainWeight rest' := g2
        _ ≤ chainWeight rest := h2
        _ ≤ chainWeight (r :: rest) := by simp [chainWeight]
    · refine ⟨r :: rest', ?_, ?_, ?_, ?_⟩
      · simp only [isChain, Bool.and_eq_true]
        exact ⟨hch.1, h1⟩
      · simp only [chainWeight, List.map_cons, List.sum_cons] at h2 ⊢
        omega
      · intro x hx
        rcases List.mem_cons.mp hx with hx | hx
        · exact hx ▸ hm r (List.mem_cons_self r rest)
        · exact h3 x hx
      · simp only [chainStations, List.nodup_cons]
        exact ⟨hu, h4⟩

/-- A walk with duplicate-free station trace has at most `maxChainLen`
edges. -/
theorem nodup_chain_length_le {pool : List Route} {rs : List Route} {u : Station}
    (hm : ∀ r ∈ rs, r ∈ pool) (hn : (chainStations u rs).Nodup) :
    rs.length ≤ maxChainLen pool := by
  obtain ⟨tail, htail⟩ := chainStations_head rs u
  have hlen : rs.length = tail.length := by
    have h0 := chainStations_length rs u
    rw [htail] at h0
    simp only [List.length_cons] at h0
    omega
  have htn : tail.Nodup := by
    rw [htail] at hn
    exact (List.nodup_cons.mp hn).2
  have hsub : ∀ x ∈ tail, x ∈ endpointStations pool := by
    intro x hx
    have := chainStations_tail_subset rs u hm x
    rw [htail] at this
    exact this (by simpa using hx)
  have hcard : tail.length ≤ (endpointStations pool).length := by
    have h1 : tail.toFinset.card = tail.length := List.toFinset_card_of_nodup htn
    have h2 : tail.toFinset ⊆ (endpointStations pool).toFinset := by
      intro x hx
      rw [List.mem_toFinset] at hx ⊢
      exact hsub x hx
    calc tail.length = tail.toFinset.card := h1.symm
      _ ≤ (endpointStations pool).toFinset.card := Finset.card_le_card h2
      _ ≤ (endpointStations pool).length := List.toFinset_card_le _
  unfold maxChainLen
  omega

/-- `minDist` is a lower bound on the weight of every walk. -/
theorem minDist_le {pool rs : List Route} {u v : Station}
    (hch : isChain u rs v = true) (hm : ∀ r ∈ rs, r ∈ pool) :
    ∃ d, minDist pool u v = some d ∧ d ≤ chainWeight rs := by
  obtain ⟨rs', h1, h2, h3, h4⟩ := chain_shorten rs u hch hm
  have hlen := nodup_chain_length_le h3 h4
  have hmem : rs' ∈ (seqsUpTo pool (maxChainLen pool)).filter (fun x => isChain u x v) :=
    List.mem_filter.mpr ⟨mem_seqsUpTo.mpr ⟨hlen, h3⟩, h1⟩
  have hwmem : chainWeight rs' ∈
      (((seqsUpTo pool (maxChainLen pool)).filter (fun x => isChain u x v)).map chainWeight) :=
    List.mem_map_of_mem chainWeight hmem
  obtain ⟨m, hmin⟩ := listMin?_isSome_of_mem hwmem
  refine ⟨m, hmin, ?_⟩
  exact le_trans ((listMin?_spec hmin).2 _ hwmem) h2

/-- `minDist` is attained by some walk. -/
theorem minDist_attained {pool : List Route} {u v : Station} {d : Nat}
    (h : minDist pool u v = some d) :
    ∃ rs, isChain u rs v = true ∧ (∀ r ∈ rs, r ∈ pool) ∧ chainWeight rs = d := by
  have hmem := (listMin?_spec h).1
  obtain ⟨rs, hrs, hw⟩ := List.mem_map.mp hmem
  have hf := List.mem_filter.mp hrs
  exact ⟨rs, hf.2, (mem_seqsUpTo.mp hf.1).2, hw⟩

/-- What a successful `bestChain` returns: a pool walk from `u` to `v`
realizing the minimum. -/
theorem bestChain_spec {pool : List Route} {u v : Station} {c : List Route}
    (h : bestChain pool u v = some c) :
    isChain u c v = true ∧ (∀ r ∈ c, r ∈ pool) ∧
      minDist pool u v = some (chainWeight c) := by
  unfold bestChain at h
  cases hd : minDist pool u v with
  | none => rw [hd] at h; exact Option.noConfusion h
  | some d =>
    rw [hd] at h
    have hp := List.find?_some h
    have hmem := List.mem_of_find?_eq_some h
    simp only [Bool.and_eq_true, beq_iff_eq] at hp
    refine ⟨hp.1, (mem_seqsUpTo.mp hmem).2, ?_⟩
    exact congrArg some hp.2.symm

theorem tryFrom_single (x : Station) (pool : List Route) :
    routePathTryFrom [x] pool = some ⟨(x, x), []⟩ := rfl

theorem tryFrom_cons (x y : Station) (rest : List Station) (pool : List Route) :
    routePathTryFrom (x :: y :: rest) pool =
      (pool.find? (fun r => r.is_from x && r.is_to y)).bind (fun r0 =>
        (routePathTryFrom (y :: rest) pool).map
          (fun rp => ⟨(x, rp.station_pair.2), r0 :: rp.routes⟩)) := by
  unfold routePathTryFrom
  simp only [List.zip_cons_cons, List.map_cons]
  cases hf : pool.find? (fun r => r.is_from x && r.is_to y) with
  | none =>
    rw [optList_cons_none]
    rfl
  | some r0 =>
    rw [optList_cons_some]
    cases ho : optList (((y :: rest).zip rest).map (fun ab =>
        pool.find? (fun r => r.is_from ab.1 && r.is_to ab.2))) with
    | none => rfl
    | some rs =>
      simp only [Option.map_some', Option.some_bind, Option.some.injEq]
      have hg : (x :: y :: rest).getLast (by simp) = (y :: rest).getLast (by simp) :=
        List.getLast_cons (by simp)
      rw [hg]

theorem tryFrom_dchain :
    ∀ (sts : List Station) (pool : List Route) (rp : RoutePath),
      routePathTryFrom sts pool = some rp →
      isDirectedChain rp.station_pair.1 rp.routes rp.station_pair.2 = true := by
  intro sts
  induction sts with
  | nil =>
    intro pool rp h
    simp [routePathTryFrom] at h
  | cons x rest ih =>
    intro pool rp h
    cases rest with
    | nil =>
      rw [tryFrom_single] at h
      injection h with h
      subst h
      simp [isDirectedChain]
    | cons y rest' =>
      rw [tryFrom_cons] at h
      obtain ⟨r0, hr0, h2⟩ := Option.bind_eq_some.mp h
      obtain ⟨rp', hrp', h3⟩ := Option.map_eq_some'.mp h2
      subst h3
      simp only [isDirectedChain, Bool.and_eq_true]
      have hp := List.find?_some hr0
      simp only [Bool.and_eq_true] at hp
      refine ⟨hp.1, ?_⟩
      have := ih pool rp' hrp'
      have hto : r0.toStation = rp'.station_pair.1 := by
        have h4 := hp.2
        unfold Route.is_to at h4
        have h5 : r0.toStation = y := by simpa using h4
        -- the head of the reconstruction of `y :: rest'` is `y`
        cases rest' with
        | nil =>
          rw [tryFrom_single] at hrp'
          injection hrp' with hrp'
          subst hrp'
          exact h5
        | cons z rest'' =>
          rw [tryFrom_cons] at hrp'
          obtain ⟨r1, _, h6⟩ := Option.bind_eq_some.mp hrp'
          obtain ⟨rp'', _, h7⟩ := Option.map_eq_some'.mp h6
          subst h7
          exact h5
      rw [hto]
      exact this

/-- Reconstruction along a walk: under unique directed times and closure
under reversal, the selected directed edges run from `u` to `v` and sum to
the walk's weight. -/
theorem tryFrom_chain_spec {pool : List Route} (hU : UniqueTimes pool) (hR : RevClosed pool) :
    ∀ (rs : List Route) (u v : Station), isChain u rs v = true → (∀ r ∈ rs, r ∈ pool) →
      ∀ rp, routePathTryFrom (chainStations u rs) pool = some rp →
        rp.station_pair = (u, v) ∧ rp.travel_time = chainWeight rs := by
  intro rs
  induction rs with
  | nil =>
    intro u v hch _ rp h
    have hv : u = v := by simpa [isChain] using hch
    subst hv
    rw [show chainStations u [] = [u] from rfl, tryFrom_single] at h
    injection h with h
    subst h
    exact ⟨rfl, rfl⟩
  | cons r rest ih =>
    intro u v hch hm rp h
    simp only [isChain, Bool.and_eq_true] at hch
    obtain ⟨tail, htail⟩ := chainStations_head rest (r.corresponding_station u)
    rw [show chainStations u (r :: rest) =
      u :: chainStations (r.corresponding_station u) rest from rfl, htail,
      tryFrom_cons] at h
    obtain ⟨r0, hr0, h2⟩ := Option.bind_eq_some.mp h
    obtain ⟨rp', hrp', h3⟩ := Option.map_eq_some'.mp h2
    subst h3
    rw [← htail] at hrp'
    obtain ⟨hpair', htime'⟩ := ih (r.corresponding_station u) v hch.2
      (fun x hx => hm x (List.mem_cons_of_mem r hx)) rp' hrp'
    have hp := List.find?_some hr0
    simp only [Bool.and_eq_true] at hp
    have hr0from : r0.fromStation = u := by
      have := hp.1
      unfold Route.is_from at this
      simpa using this
    have hr0to : r0.toStation = r.corresponding_station u := by
      have h4 := hp.2
      unfold Route.is_to at h4
      simpa using h4
    have hr0mem : r0 ∈ pool := List.mem_of_find?_eq_some hr0
    have hrmem : r ∈ pool := hm r (List.mem_cons_self r rest)
    -- r0 has the same travel time as r
    have htt : r0.travel_time = r.travel_time := by
      have hinv := hch.1
      unfold Route.is_involve_station at hinv
      rw [Bool.or_eq_true] at hinv
      by_cases hcase : (r.fromStation == u) = true
      · -- r runs u → corresponding, so r0 and r join the same ordered pair
        have hfrom : r.fromStation = u := by simpa using hcase
        have hto : r.toStation = r.corresponding_station u := by
          unfold Route.corresponding_station
          rw [if_pos hcase]
        apply hU r0 hr0mem r hrmem
        have e1 : r0.station_pair = (r0.fromStation, r0.toStation) := rfl
        have e2 : r.station_pair = (r.fromStation, r.toStation) := rfl
        rw [e1, e2, hr0from, hr0to, hfrom, hto]
      · -- r runs corresponding → u; its reverse joins the pair of r0
        have hto : r.toStation = u := by
          rcases hinv with h5 | h5
          · exact absurd h5 hcase
          · simpa using h5
        have hfrom : r.fromStation = r.corresponding_station u := by
          unfold Route.corresponding_station
          rw [if_neg hcase]
        obtain ⟨rrev, hrevmem, hrevpair, hrevtime⟩ := hR r hrmem
        have := hU r0 hr0mem rrev hrevmem
        rw [← hrevtime]
        apply this
        have e1 : r0.station_pair = (r0.fromStation, r0.toStation) := rfl
        rw [e1, hr0from, hr0to, hrevpair]
        rw [show r.station_pair.2 = r.toStation from rfl,
          show r.station_pair.1 = r.fromStation from rfl, hto, hfrom]
    constructor
    · rw [show (⟨(u, rp'.station_pair.2), r0 :: rp'.routes⟩ : RoutePath).station_pair =
        (u, rp'.station_pair.2) from rfl, hpair']
    · rw [show (⟨(u, rp'.station_pair.2), r0 :: rp'.routes⟩ : RoutePath).travel_time =
        r0.travel_time + rp'.travel_time from by
          simp [RoutePath.travel_time]]
      rw [htime', htt]
      simp [chainWeight]

theorem rmLookup_mem {m : List ((Station × Station) × RoutePath)} {k : Station × Station}
    {rp : RoutePath} (h : rmLookup m k = some rp) : (k, rp) ∈ m := by
  unfold rmLookup at h
  cases hf : m.reverse.find? (fun e => e.1 == k) with
  | none => rw [hf] at h; exact Option.noConfusion h
  | some e =>
    rw [hf, Option.map_some', Option.some.injEq] at h
    have hp := List.find?_some hf
    have hmem := List.mem_of_find?_eq_some hf
    rw [List.mem_reverse] at hmem
    have hk : e.1 = k := by simpa using hp
    have he : e = (k, rp) := Prod.ext hk h
    rw [he] at hmem
    exact hmem

theorem rmLookup_all_map {net : Network} {k : Station × Station} {rp : RoutePath}
    (h : rmLookup net.all_shortest_route_paths_map k = some rp) :
    rp ∈ net.all_shortest_route_paths ∧ rp.station_pair = k := by
  have hmem := rmLookup_mem h
  unfold Network.all_shortest_route_paths_map at hmem
  obtain ⟨x, hx, hxe⟩ := List.mem_map.mp hmem
  have h1 : x.station_pair = k := congrArg Prod.fst hxe
  have h2 : x = rp := congrArg Prod.snd hxe
  subst h2
  exact ⟨hx, h1⟩

theorem mem_all_shortest {net : Network} {rp : RoutePath}
    (h : rp ∈ net.all_shortest_route_paths) :
    (∃ s, s ∈ net.stations ∧ rp = RoutePath.identityPath s) ∨
      (∃ u v c, bestChain net.routes u v = some c ∧
        routePathTryFrom (chainStations u c) net.routes = some rp) := by
  unfold Network.all_shortest_route_paths at h
  rcases List.mem_append.mp h with h | h
  · left
    obtain ⟨s, hs, he⟩ := List.mem_map.mp h
    exact ⟨s, hs, he.symm⟩
  · right
    rw [List.mem_dedup] at h
    obtain ⟨u, hu, hx⟩ := List.mem_flatMap.mp h
    unfold Network.shortest_route_paths at hx
    obtain ⟨v, hv, hbind⟩ := List.mem_filterMap.mp hx
    obtain ⟨c, hc, htf⟩ := Option.bind_eq_some.mp hbind
    exact ⟨u, v, c, hc, htf⟩

/-- Two directed routes joining the same station pair with different
times: the SSSP finds the cost-10 route, but `try_from` reconstructs with
the first matching route of the input, `R1` (cost 100). -/
def netPar : Network :=
  { stations := [stA, stB],
    routes := doubledRoutes [⟨"R1", (stA, stB), 100⟩, ⟨"R2", (stA, stB), 10⟩],
    packages := [], trains := [] }

/-- C6: every entry of `route_map` under key `(a, b)` is a directed chain of
network routes from `a` to `b`; and provided no two directed routes join the
same ordered station pair with different travel times (with reverses
present, as input doubling guarantees), its total travel time equals the
minimum weight over all walks from `a` to `b`, which is both a lower bound
on every walk and attained by one. -/
theorem route_map_chain_and_minimal (net : Network) (a b : Station) (rp : RoutePath)
    (h : rmLookup net.route_map (a, b) = some rp) :
    isDirectedChain a rp.routes b = true ∧
    (UniqueTimes net.routes → RevClosed net.routes →
      ∃ d, minDist net.routes a b = some d ∧ rp.travel_time = d ∧
        (∀ rs, isChain a rs b = true → (∀ r ∈ rs, r ∈ net.routes) → d ≤ chainWeight rs) ∧
        (∃ rs, isChain a rs b = true ∧ (∀ r ∈ rs, r ∈ net.routes) ∧ chainWeight rs = d)) := by
  obtain ⟨hmem, hpair⟩ := rmLookup_all_map h
  rcases mem_all_shortest hmem with ⟨s, hs, rfl⟩ | ⟨u, v, c, hbc, htf⟩
  · simp only [RoutePath.identityPath] at hpair
    have ha : s = a := congrArg Prod.fst hpair
    have hb : s = b := congrArg Prod.snd hpair
    subst ha
    subst hb
    constructor
    · simp [RoutePath.identityPath, isDirectedChain, Route.identity, Route.is_from,
        Route.fromStation, Route.toStation]
    · intro _ _
      have hch : isChain s [] s = true := by simp [isChain]
      have hnil : ∀ r ∈ ([] : List Route), r ∈ net.routes := by
        intro r hr
        exact absurd hr (List.not_mem_nil r)
      obtain ⟨d, hd, hle⟩ := minDist_le hch hnil
      have hd0 : d = 0 := Nat.le_zero.mp (by simpa [chainWeight] using hle)
      subst hd0
      refine ⟨0, hd, ?_, fun rs _ _ => Nat.zero_le _, ⟨[], hch, hnil, rfl⟩⟩
      simp [RoutePath.identityPath, RoutePath.travel_time, Route.identity]
  · obtain ⟨hch, hcm, hmd⟩ := bestChain_spec hbc
    constructor
    · have hd := tryFrom_dchain _ _ _ htf
      rw [hpair] at hd
      exact hd
    · intro hU hR
      obtain ⟨hpair2, htime⟩ := tryFrom_chain_spec hU hR c u v hch hcm rp htf
      have h1 : (u, v) = (a, b) := hpair2.symm.trans hpair
      have hu : u = a := congrArg Prod.fst h1
      have hv : v = b := congrArg Prod.snd h1
      subst hu
      subst hv
      refine ⟨chainWeight c, hmd, htime, ?_, ⟨c, hch, hcm, rfl⟩⟩
      intro rs hrs hrm
      obtain ⟨d2, hd2, hle⟩ := minDist_le hrs hrm
      rw [hmd] at hd2
      injection hd2 with hd2
      rw [← hd2] at hle
      exact hle

/-- With two parallel directed routes `A → B` of times 100 and 10, the route
map's `(A, B)` entry has total time 100 even though a pool walk of weight 10
exists: the reconstruction is not minimal, contradicting the claim's
unconditional minimality. -/
theorem route_map_not_minimal_cex :
    ∃ rp, rmLookup netPar.route_map (stA, stB) = some rp ∧
      rp.travel_time = 100 ∧
      isChain stA [⟨"R2", (stA, stB), 10⟩] stB = true ∧
      (⟨"R2", (stA, stB), 10⟩ : Route) ∈ netPar.routes ∧
      chainWeight [(⟨"R2", (stA, stB), 10⟩ : Route)] = 10 := by
  refine ⟨⟨(stA, stB), [⟨"R1", (stA, stB), 100⟩]⟩, ?_, ?_, ?_, ?_, ?_⟩ <;> decide

theorem route_map_chain_and_minimal_w :
    rmLookup netAB.route_map (stA, stB) = some ⟨(stA, stB), [routeAB]⟩ ∧
      (isDirectedChain stA (RoutePath.mk (stA, stB) [routeAB]).routes stB = true ∧
        (UniqueTimes netAB.routes → RevClosed netAB.routes →
          ∃ d, minDist netAB.routes stA stB = some d ∧
            (RoutePath.mk (stA, stB) [routeAB]).travel_time = d ∧
            (∀ rs, isChain stA rs stB = true → (∀ r ∈ rs, r ∈ netAB.routes) →
              d ≤ chainWeight rs) ∧
            (∃ rs, isChain stA rs stB = true ∧ (∀ r ∈ rs, r ∈ netAB.routes) ∧
              chainWeight rs = d))) :=
  ⟨by decide, route_map_chain_and_minimal netAB stA stB ⟨(stA, stB), [routeAB]⟩ (by decide)⟩

end Trains

